import Mathlib

/-!
Shallow embedding of `src/utils/receptive_field.py` (class `ReceptiveField`).

Real (numpy float64) arithmetic is modelled exactly over `ℚ`; machine
integers over `ℤ`/`ℕ`.  Fallible operations (numpy `IndexError`,
`ValueError`, ...) are modelled with `Option`/`Except`.  Matrices are lists
of rows.
-/

namespace RF

/-- Python wrap-around indexing into a container of length `len`
(numpy integer indexing): valid for `-len ≤ i < len`, negative indices
wrap to `len + i`; anything else is an `IndexError` (`none`). -/
def pyIdx (len : ℕ) (i : ℤ) : Option ℕ :=
  if 0 ≤ i ∧ i < (len : ℤ) then some i.toNat
  else if -(len : ℤ) ≤ i ∧ i < 0 then some (i + len).toNat
  else none

/-- `np.round` on an exact value: round half to even (numpy's documented
tie-breaking rule, "rounds to the nearest even value"). -/
def npRound (q : ℚ) : ℤ :=
  if Int.fract q = 1 / 2 then (if Even ⌊q⌋ then ⌊q⌋ else ⌊q⌋ + 1)
  else round q

/-- `self.num_cells = int(np.round(1/np.prod(self.cell_size/2)))`
(line 120).  `int()` truncation of the already integral rounded value is
the identity for the nonnegative values reachable from a positive
`cell_size`; we use `toNat`. -/
def num_cells (cell_size : List ℚ) : ℕ :=
  (npRound (1 / ((cell_size.map (fun s => s / 2)).prod))).toNat

/-- `center_and_scale` (lines 353-355): `(X - self.x) / self.bounding_radii`,
for one point (one row of `X`). -/
def center_and_scale (x radii p : List ℚ) : List ℚ :=
  List.zipWith (fun a b => a / b) (List.zipWith (fun a b => a - b) p x) radii

/-- `undo_center_and_scale` (lines 357-359):
`self.bounding_radii * X + self.x`, for one point. -/
def undo_center_and_scale (x radii p : List ℚ) : List ℚ :=
  List.zipWith (fun a b => a + b) (List.zipWith (fun a b => a * b) radii p) x

/-- The dimensional factors (lines 327-333): `dim_factors[0] = 1`,
`dim_factors[i] = dim_factors[i-1] * ceil((b[i-1]-a[i-1])/cell_size[i-1])`
with `b - a = 2` per axis. -/
def dim_factors (cell_size : List ℚ) : List ℤ :=
  cell_size.dropLast.scanl (fun f s => f * ⌈(2 : ℚ) / s⌉) 1

/-- The boundary fuzz `1e-15` added before flooring (line 338). -/
def epsQ : ℚ := 1 / 10 ^ 15

/-- Point-wise flattened cell index (lines 334-342): per axis
`floor((x_k - a_k)/s_k + 1e-15) * f_k` (with `a_k = -1`), clipped above by
`(floor(2/s_k) - 1) * f_k`, then summed over the axes.  (`astype(int)` on
the integral float values is the identity in the exact model.) -/
def cell_index (cell_size p : List ℚ) : ℤ :=
  (List.zipWith
    (fun sf (x : ℚ) =>
      min (⌊(x + 1) / sf.1 + epsQ⌋ * sf.2) ((⌊(2 : ℚ) / sf.1⌋ - 1) * sf.2))
    (cell_size.zip (dim_factors cell_size)) p).sum

/-- The flattened cell index of each input point: the list `I`
(lines 324-342) for `X` already centered-and-scaled; here we take the raw
`X` together with the fit center and radii. -/
def pointIndices (cell_size radii x : List ℚ) (X : List (List ℚ)) : List ℤ :=
  (X.map (center_and_scale x radii)).map (cell_index cell_size)

/-- The row of the indexing matrix that point `j` is written to
(`N[i, ...]` with Python wrap-around semantics). -/
def rowOfPoint (R : ℕ) (I : List ℤ) (j : ℕ) : Option ℕ :=
  (I.get? j).bind (pyIdx R)

/-- `max_num_neighs` (line 344):
`np.max(np.unique(I[I != -1], return_counts=True)[1])`; `np.max` of an
empty array raises (`none`). -/
def max_num_neighs (I : List ℤ) : Option ℕ :=
  let J := I.filter (fun i => i ≠ -1)
  if J.isEmpty then none
  else some ((J.map (fun i => J.count i)).foldr max 0)

/-- Row `r` of the matrix as a list (rows out of range give `[]`). -/
def getRow (N : List (List ℤ)) (r : ℕ) : List ℤ :=
  N.getD r []

/-- Write value `v` at row `r`, column `c`. -/
def setEntry (N : List (List ℤ)) (r c : ℕ) (v : ℤ) : List (List ℤ) :=
  N.set r ((getRow N r).set c v)

/-- The population loop (lines 346-349): `N[i, index_pointers[i]] = j;
index_pointers[i] += 1` for `j, i` in `enumerate(I)`.  A row index outside
`[-R, R)` or a slot index `≥ W` is an `IndexError` (`none`). -/
def populate (R W : ℕ) : List ℤ → ℕ → List (List ℤ) → List ℕ →
    Option (List (List ℤ))
  | [], _, N, _ => some N
  | i :: rest, j, N, ptr =>
    match pyIdx R i with
    | none => none
    | some r =>
      let c := ptr.getD r 0
      if c < W then
        populate R W rest (j + 1) (setEntry N r c (j : ℤ)) (ptr.set r (c + 1))
      else none

/-- Matrix building from the point-wise cell indices (lines 343-351):
allocate the `R × max_num_neighs` matrix full of the shadow `-1` and run
the population loop. -/
def buildN (R : ℕ) (I : List ℤ) : Option (List (List ℤ)) :=
  match max_num_neighs I with
  | none => none
  | some W => populate R W I 0 (List.replicate R (List.replicate W (-1)))
      (List.replicate R 0)

/-- `shadow_indexing_matrix_from_points` (lines 273-351) composed with the
centering/scaling done by `fit` (lines 154-158): from the raw points, the
fit center and the bounding radii, build the indexing matrix `N`. -/
def fitN (cell_size radii x : List ℚ) (X : List (List ℚ)) :
    Option (List (List ℤ)) :=
  buildN (num_cells cell_size) (pointIndices cell_size radii x X)

/-- The point numbers (counted from `j` onwards) of the elements of `L`
that the population loop routes to row `r`, in their original order. -/
def assigned (R r : ℕ) : List ℤ → ℕ → List ℤ
  | [], _ => []
  | i :: rest, j =>
    if pyIdx R i = some r then (j : ℤ) :: assigned R r rest (j + 1)
    else assigned R r rest (j + 1)

lemma getD_set_self {α : Type} (l : List α) (i : ℕ) (v d : α)
    (h : i < l.length) : (l.set i v).getD i d = v := by
  simp [List.getD, List.getElem?_set_self', h]

lemma getD_set_ne {α : Type} (l : List α) (i j : ℕ) (v d : α) (h : i ≠ j) :
    (l.set i v).getD j d = l.getD j d := by
  simp [List.getD, List.getElem?_set_ne h]

lemma getD_replicate {α : Type} (n i : ℕ) (a d : α) (h : i < n) :
    (List.replicate n a).getD i d = a := by
  simp [List.getD, List.getElem?_replicate, h]

lemma pyIdx_lt {len : ℕ} {i : ℤ} {p : ℕ} (h : pyIdx len i = some p) :
    p < len := by
  unfold pyIdx at h
  split at h
  · rename_i hc
    simp only [Option.some.injEq] at h
    omega
  · split at h
    · rename_i hc hc2
      simp only [Option.some.injEq] at h
      omega
    · exact absurd h (by simp)

lemma assigned_bound (R r : ℕ) (L : List ℤ) :
    ∀ (j : ℕ) (v : ℤ), v ∈ assigned R r L j →
      (j : ℤ) ≤ v ∧ v < (j : ℤ) + L.length := by
  induction L with
  | nil => intro j v hv; simp [assigned] at hv
  | cons i rest ih =>
    intro j v hv
    rw [assigned] at hv
    split at hv
    · rcases List.mem_cons.mp hv with h | h
      · subst h; constructor
        · exact le_refl _
        · simp only [List.length_cons]; push_cast; omega
      · have := ih (j + 1) v h
        simp only [List.length_cons]; push_cast at this ⊢; omega
    · have := ih (j + 1) v hv
      simp only [List.length_cons]; push_cast at this ⊢; omega

lemma assigned_nodup (R r : ℕ) (L : List ℤ) :
    ∀ j : ℕ, (assigned R r L j).Nodup := by
  induction L with
  | nil => intro j; simp [assigned]
  | cons i rest ih =>
    intro j
    rw [assigned]
    split
    · refine List.nodup_cons.mpr ⟨fun hmem => ?_, ih (j + 1)⟩
      have := assigned_bound R r rest (j + 1) _ hmem
      push_cast at this; omega
    · exact ih (j + 1)

lemma mem_assigned (R r : ℕ) (L : List ℤ) :
    ∀ (j : ℕ) (v : ℤ), v ∈ assigned R r L j →
      ∃ (k : ℕ) (i : ℤ), L.get? k = some i ∧ pyIdx R i = some r ∧
        v = ((j + k : ℕ) : ℤ) := by
  induction L with
  | nil => intro j v hv; simp [assigned] at hv
  | cons i rest ih =>
    intro j v hv
    rw [assigned] at hv
    split at hv
    · rename_i hroute
      rcases List.mem_cons.mp hv with h | h
      · exact ⟨0, i, rfl, hroute, by omega⟩
      · obtain ⟨k, i', h1, h2, h3⟩ := ih (j + 1) v h
        exact ⟨k + 1, i', h1, h2, by omega⟩
    · obtain ⟨k, i', h1, h2, h3⟩ := ih (j + 1) v hv
      exact ⟨k + 1, i', h1, h2, by omega⟩

lemma assigned_mem (R r : ℕ) (L : List ℤ) :
    ∀ (j k : ℕ) (i : ℤ), L.get? k = some i → pyIdx R i = some r →
      ((j + k : ℕ) : ℤ) ∈ assigned R r L j := by
  induction L with
  | nil => intro j k i hk; simp at hk
  | cons i0 rest ih =>
    intro j k i hk hr
    rw [assigned]
    match k, hk with
    | 0, hk =>
      simp only [List.get?_cons_zero, Option.some.injEq] at hk
      subst hk
      rw [if_pos hr]
      exact List.mem_cons_self _ _
    | k' + 1, hk =>
      have hmem := ih (j + 1) k' i hk hr
      have harith : ((j + (k' + 1) : ℕ) : ℤ) = (((j + 1) + k' : ℕ) : ℤ) := by
        omega
      rw [harith]
      split
      · exact List.mem_cons_of_mem _ hmem
      · exact hmem

lemma populate_valid (R W : ℕ) (L : List ℤ) :
    ∀ (j : ℕ) (N : List (List ℤ)) (ptr : List ℕ) (N' : List (List ℤ)),
      populate R W L j N ptr = some N' →
      ∀ i ∈ L, ∃ r, pyIdx R i = some r := by
  induction L with
  | nil => intro j N ptr N' _ i hi; simp at hi
  | cons i0 rest ih =>
    intro j N ptr N' h i hi
    rw [populate] at h
    rcases hpy : pyIdx R i0 with _ | r0
    · rw [hpy] at h; exact absurd h (by simp)
    · rw [hpy] at h
      simp only at h
      split at h
      · rcases List.mem_cons.mp hi with hq | hq
        · exact ⟨r0, hq ▸ hpy⟩
        · exact ih _ _ _ _ h i hq
      · exact absurd h (by simp)

lemma set_append_len {α : Type} (t l : List α) (v : α) :
    (t ++ l).set t.length v = t ++ l.set 0 v := by
  induction t with
  | nil => rfl
  | cons a t ih => simp [List.set, ih]

/-- Characterization of the population loop: starting from a state where
each row `r` consists of `ptr r` already-written slots followed by shadow
slots, a successful run appends to each row exactly the point numbers that
`pyIdx` routes to it, in order, with the remaining slots still shadow. -/
lemma populate_rows (R W : ℕ) (L : List ℤ) :
    ∀ (j : ℕ) (N : List (List ℤ)) (ptr : List ℕ) (N' : List (List ℤ)),
      populate R W L j N ptr = some N' →
      N.length = R → ptr.length = R →
      (∀ r, r < R → ptr.getD r 0 ≤ W ∧ (getRow N r).length = W ∧
        getRow N r = (getRow N r).take (ptr.getD r 0) ++
          List.replicate (W - ptr.getD r 0) (-1)) →
      N'.length = R ∧
      ∀ r, r < R →
        getRow N' r = (getRow N r).take (ptr.getD r 0) ++ assigned R r L j ++
          List.replicate (W - ptr.getD r 0 - (assigned R r L j).length)
            (-1) ∧
        ptr.getD r 0 + (assigned R r L j).length ≤ W := by
  induction L with
  | nil =>
    intro j N ptr N' h hN hptr hpre
    rw [populate] at h
    injection h with h
    subst h
    refine ⟨hN, fun r hr => ?_⟩
    obtain ⟨h1, _, h3⟩ := hpre r hr
    simp only [assigned, List.length_nil, List.append_nil, Nat.sub_zero,
      Nat.add_zero]
    exact ⟨h3, h1⟩
  | cons i0 rest ih =>
    intro j N ptr N' h hN hptr hpre
    rw [populate] at h
    rcases hpy : pyIdx R i0 with _ | r0
    · rw [hpy] at h; exact absurd h (by simp)
    rw [hpy] at h
    simp only at h
    split at h
    case isFalse => exact absurd h (by simp)
    case isTrue hcW =>
      have hr0R : r0 < R := pyIdx_lt hpy
      obtain ⟨hle0, hlen0, hrow0⟩ := hpre r0 hr0R
      have htlen : ((getRow N r0).take (ptr.getD r0 0)).length =
          ptr.getD r0 0 := by
        rw [List.length_take, hlen0]; omega
      have hsetrow : getRow (setEntry N r0 (ptr.getD r0 0) (j : ℤ)) r0 =
          (getRow N r0).take (ptr.getD r0 0) ++
            (j : ℤ) :: List.replicate (W - (ptr.getD r0 0 + 1)) (-1) := by
        have h1 : getRow (setEntry N r0 (ptr.getD r0 0) (j : ℤ)) r0 =
            (getRow N r0).set (ptr.getD r0 0) (j : ℤ) := by
          unfold getRow setEntry
          exact getD_set_self _ _ _ _ (by rw [hN]; exact hr0R)
        rw [h1]
        conv_lhs => rw [hrow0]
        have hWc : W - ptr.getD r0 0 = (W - (ptr.getD r0 0 + 1)) + 1 := by
          omega
        rw [hWc, List.replicate_succ]
        generalize hT : List.take (ptr.getD r0 0) (getRow N r0) = T
        have htlen2 : T.length = ptr.getD r0 0 := hT ▸ htlen
        rw [← htlen2, set_append_len]
        rfl
      have hsetlen :
          (getRow (setEntry N r0 (ptr.getD r0 0) (j : ℤ)) r0).length = W := by
        rw [hsetrow]
        simp only [List.length_append, List.length_cons,
          List.length_replicate, htlen]
        omega
      have hrow_ne : ∀ r, r ≠ r0 →
          getRow (setEntry N r0 (ptr.getD r0 0) (j : ℤ)) r = getRow N r := by
        intro r hne
        unfold getRow setEntry
        exact getD_set_ne _ _ _ _ _ (fun hh => hne hh.symm)
      have hptr_ne : ∀ r, r ≠ r0 →
          (ptr.set r0 (ptr.getD r0 0 + 1)).getD r 0 = ptr.getD r 0 := by
        intro r hne
        exact getD_set_ne _ _ _ _ _ (fun hh => hne hh.symm)
      have hptr_eq :
          (ptr.set r0 (ptr.getD r0 0 + 1)).getD r0 0 = ptr.getD r0 0 + 1 :=
        getD_set_self _ _ _ _ (by rw [hptr]; exact hr0R)
      have htake1 : (getRow (setEntry N r0 (ptr.getD r0 0) (j : ℤ))
            r0).take (ptr.getD r0 0 + 1) =
          (getRow N r0).take (ptr.getD r0 0) ++ [(j : ℤ)] := by
        rw [hsetrow]
        have hsplit : (getRow N r0).take (ptr.getD r0 0) ++
            (j : ℤ) :: List.replicate (W - (ptr.getD r0 0 + 1)) (-1) =
            ((getRow N r0).take (ptr.getD r0 0) ++ [(j : ℤ)]) ++
              List.replicate (W - (ptr.getD r0 0 + 1)) (-1) := by
          simp
        rw [hsplit, List.take_left'
          (by rw [List.length_append, htlen, List.length_singleton])]
      obtain ⟨hlen', hrows'⟩ := ih (j + 1) _ _ _ h
        (by rw [setEntry, List.length_set]; exact hN)
        (by rw [List.length_set]; exact hptr)
        (by
          intro r hrR
          rcases eq_or_ne r r0 with hq | hq
          · subst hq
            refine ⟨by rw [hptr_eq]; omega, hsetlen, ?_⟩
            rw [hptr_eq, htake1, hsetrow]
            simp
          · obtain ⟨p1, p2, p3⟩ := hpre r hrR
            rw [hrow_ne r hq, hptr_ne r hq]
            exact ⟨p1, p2, p3⟩)
      refine ⟨hlen', fun r hrR => ?_⟩
      obtain ⟨hrow', hcnt'⟩ := hrows' r hrR
      rcases eq_or_ne r r0 with hq | hq
      · subst hq
        rw [hptr_eq, htake1] at hrow'
        rw [hptr_eq] at hcnt'
        have hasg : assigned R r (i0 :: rest) j =
            (j : ℤ) :: assigned R r rest (j + 1) := by
          rw [assigned, if_pos hpy]
        rw [hasg, hrow']
        constructor
        · have harith : W - ptr.getD r 0 -
              ((j : ℤ) :: assigned R r rest (j + 1)).length =
              W - (ptr.getD r 0 + 1) -
                (assigned R r rest (j + 1)).length := by
            simp only [List.length_cons]; omega
          rw [harith]
          simp [List.append_assoc]
        · simp only [List.length_cons]; omega
      · have hne2 : pyIdx R i0 ≠ some r := by
          rw [hpy]
          intro hh
          exact hq (Option.some.inj hh).symm
        have hasg : assigned R r (i0 :: rest) j =
            assigned R r rest (j + 1) := by
          rw [assigned, if_neg hne2]
        rw [hrow_ne r hq, hptr_ne r hq] at hrow'
        rw [hptr_ne r hq] at hcnt'
        rw [hasg]
        exact ⟨hrow', hcnt'⟩

/-- The rows of a successfully built indexing matrix: row `r` is the list
of point numbers routed to it (in order), padded with the shadow `-1`. -/
lemma buildN_rows {R : ℕ} {I : List ℤ} {N : List (List ℤ)}
    (h : buildN R I = some N) :
    ∃ W, max_num_neighs I = some W ∧ N.length = R ∧
      ∀ r, r < R →
        getRow N r = assigned R r I 0 ++
          List.replicate (W - (assigned R r I 0).length) (-1) ∧
        (assigned R r I 0).length ≤ W := by
  rw [buildN] at h
  rcases hW : max_num_neighs I with _ | W
  · rw [hW] at h; exact absurd h (by simp)
  rw [hW] at h
  simp only at h
  have hpre : ∀ r, r < R →
      (List.replicate R (0 : ℕ)).getD r 0 ≤ W ∧
      (getRow (List.replicate R (List.replicate W (-1 : ℤ))) r).length = W ∧
      getRow (List.replicate R (List.replicate W (-1 : ℤ))) r =
        (getRow (List.replicate R (List.replicate W (-1 : ℤ))) r).take
          ((List.replicate R (0 : ℕ)).getD r 0) ++
        List.replicate (W - (List.replicate R (0 : ℕ)).getD r 0) (-1) := by
    intro r hr
    rw [getD_replicate _ _ _ _ hr, getRow, getD_replicate _ _ _ _ hr]
    simp
  obtain ⟨hlen, hrows⟩ := populate_rows R W I 0 _ _ _ h
    (by rw [List.length_replicate]) (by rw [List.length_replicate]) hpre
  refine ⟨W, rfl, hlen, fun r hr => ?_⟩
  obtain ⟨h1, h2⟩ := hrows r hr
  rw [getD_replicate _ _ _ _ hr] at h1 h2
  simp only [List.take_zero, List.nil_append, Nat.sub_zero, Nat.zero_add]
    at h1 h2
  exact ⟨h1, h2⟩

/-- A successful `buildN` run routed every input index through `pyIdx`. -/
lemma buildN_valid {R : ℕ} {I : List ℤ} {N : List (List ℤ)}
    (h : buildN R I = some N) :
    ∀ i ∈ I, ∃ r, pyIdx R i = some r := by
  rw [buildN] at h
  rcases hW : max_num_neighs I with _ | W
  · rw [hW] at h; exact absurd h (by simp)
  rw [hW] at h
  simp only at h
  exact populate_valid R W I 0 _ _ _ h

lemma map_sum_getD {α : Type} (l : List α) (f : α → ℕ) (d : α) :
    (l.map f).sum =
      ((List.range l.length).map (fun k => f (l.getD k d))).sum := by
  induction l with
  | nil => rfl
  | cons a t ih =>
    rw [List.map_cons, List.sum_cons, List.length_cons,
      List.range_succ_eq_map, List.map_cons, List.sum_cons, List.map_map]
    congr 1

lemma range_sum_single (n r0 : ℕ) (f : ℕ → ℕ) (hr : r0 < n)
    (h0 : ∀ r, r < n → r ≠ r0 → f r = 0) :
    ((List.range n).map f).sum = f r0 := by
  induction n with
  | zero => omega
  | succ n ih =>
    rw [List.range_succ, List.map_append, List.sum_append]
    rcases eq_or_ne r0 n with hq | hq
    · subst hq
      have hz : ((List.range r0).map f).sum = 0 := by
        apply List.sum_eq_zero
        intro x hx
        obtain ⟨k, hk, hfk⟩ := List.mem_map.mp hx
        have hkr : k < r0 := List.mem_range.mp hk
        exact hfk ▸ h0 k (by omega) (by omega)
      rw [hz]
      simp
    · have hr0n : r0 < n := by omega
      rw [ih hr0n (fun r hrn hne => h0 r (by omega) hne)]
      have hfn : f n = 0 := h0 n (by omega) (fun hh => hq hh.symm)
      simp [hfn]

lemma pointIndices_length (cs radii x : List ℚ) (X : List (List ℚ)) :
    (pointIndices cs radii x X).length = X.length := by
  simp [pointIndices]

lemma count_assigned (R r : ℕ) (I : List ℤ) (j : ℕ) :
    (assigned R r I 0).count ((j : ℕ) : ℤ) =
      if rowOfPoint R I j = some r then 1 else 0 := by
  by_cases hro : rowOfPoint R I j = some r
  · rw [if_pos hro]
    rw [rowOfPoint] at hro
    rcases hg : I.get? j with _ | i
    · rw [hg] at hro; exact absurd hro (by simp)
    · rw [hg] at hro
      simp only [Option.some_bind] at hro
      have hmem : ((0 + j : ℕ) : ℤ) ∈ assigned R r I 0 :=
        assigned_mem R r I 0 j i hg hro
      rw [Nat.zero_add] at hmem
      exact List.count_eq_one_of_mem (assigned_nodup R r I 0) hmem
  · rw [if_neg hro]
    apply List.count_eq_zero_of_not_mem
    intro hmem
    obtain ⟨k, i, h1, h2, h3⟩ := mem_assigned R r I 0 _ hmem
    have hkj : k = j := by omega
    subst hkj
    exact hro (by rw [rowOfPoint, h1]; simpa using h2)

lemma count_replicate_shadow (n : ℕ) (j : ℕ) :
    (List.replicate n (-1 : ℤ)).count ((j : ℕ) : ℤ) = 0 := by
  simp only [List.count_replicate, beq_iff_eq]
  rw [if_neg (by omega)]

/-- In a successfully built matrix, every point number `j < I.length`
occurs in exactly one slot, over all rows together. -/
lemma buildN_count {R : ℕ} {I : List ℤ} {N : List (List ℤ)}
    (h : buildN R I = some N) (j : ℕ) (hj : j < I.length) :
    (N.map (fun row => row.count ((j : ℕ) : ℤ))).sum = 1 := by
  obtain ⟨W, _, hlen, hrows⟩ := buildN_rows h
  have hij : I.get? j = some (I.get ⟨j, hj⟩) := List.get?_eq_get hj
  obtain ⟨r0, hr0⟩ := buildN_valid h _ (List.get?_mem hij)
  have hro : rowOfPoint R I j = some r0 := by
    rw [rowOfPoint, hij]; simpa using hr0
  have hr0R : r0 < R := pyIdx_lt hr0
  rw [map_sum_getD N _ [], hlen,
    range_sum_single R r0 _ hr0R (fun r hrR hne => ?_)]
  · obtain ⟨hrow, _⟩ := hrows r0 hr0R
    show (getRow N r0).count _ = 1
    rw [hrow, List.count_append, count_assigned, count_replicate_shadow,
      if_pos hro]
  · obtain ⟨hrow, _⟩ := hrows r hrR
    show (getRow N r).count _ = 0
    rw [hrow, List.count_append, count_assigned, count_replicate_shadow,
      if_neg (by rw [hro]; intro hh; exact hne (Option.some.inj hh).symm)]

lemma assigned_eq_nil {R r : ℕ} {I : List ℤ}
    (h : ∀ j, j < I.length → rowOfPoint R I j ≠ some r) :
    assigned R r I 0 = [] := by
  rcases hA : assigned R r I 0 with _ | ⟨v, tl⟩
  · rfl
  · exfalso
    have hmem : v ∈ assigned R r I 0 := by
      rw [hA]; exact List.mem_cons_self _ _
    obtain ⟨k, i, h1, h2, _⟩ := mem_assigned R r I 0 v hmem
    have hklen : k < I.length := by
      rcases List.get?_eq_some.mp h1 with ⟨hk, _⟩
      exact hk
    exact h k hklen (by rw [rowOfPoint, h1]; simpa using h2)

/-- C1: for every successful `fit` on an `m`-point input, every point
index in `[0, m)` occurs in exactly one slot of the indexing matrix
(counted over all cells), and a cell to which no point was routed has all
of its slots equal to the shadow sentinel `-1`. -/
theorem fit_index_coverage (cs radii x : List ℚ) (X : List (List ℚ))
    (N : List (List ℤ)) (h : fitN cs radii x X = some N) :
    (∀ j, j < X.length →
      (N.map (fun row => row.count ((j : ℕ) : ℤ))).sum = 1) ∧
    (∀ r, r < N.length →
      (∀ j, j < X.length →
        rowOfPoint (num_cells cs) (pointIndices cs radii x X) j ≠ some r) →
      ∀ e ∈ getRow N r, e = (-1 : ℤ)) := by
  rw [fitN] at h
  constructor
  · intro j hj
    exact buildN_count h j (by rw [pointIndices_length]; exact hj)
  · intro r hrN hno e he
    obtain ⟨W, _, hlen, hrows⟩ := buildN_rows h
    obtain ⟨hrow, _⟩ := hrows r (hlen ▸ hrN)
    have hnil : assigned (num_cells cs) r
        (pointIndices cs radii x X) 0 = [] :=
      assigned_eq_nil (fun j hj =>
        hno j (by rw [pointIndices_length] at hj; exact hj))
    rw [hrow, hnil, List.nil_append] at he
    exact List.eq_of_mem_replicate he

/-- The point cloud of the scenario in spec §8: three 2-d points with
`cell_size = [1, 1]`, `bounding_radii = [1, 1]` and center `(0, 0)`. -/
def Xscen : List (List ℚ) := [[-1/2, -1/2], [1/2, 1/2], [9/10, 9/10]]

lemma scen_num_cells : num_cells [1, 1] = 4 := by
  norm_num [num_cells, npRound, Int.fract]
  rfl

lemma scen_cas : Xscen.map (center_and_scale [0, 0] [1, 1]) = Xscen := by
  norm_num [Xscen, center_and_scale]

lemma scen_I : pointIndices [1, 1] [1, 1] [0, 0] Xscen = [0, 3, 3] := by
  rw [pointIndices, scen_cas]
  norm_num [Xscen, cell_index, dim_factors, epsQ, List.scanl]

/-- Evaluation of the scenario fit: point 0 lands in cell 0, points 1 and
2 share cell 3, cells 1 and 2 stay empty. -/
lemma scen_fit : fitN [1, 1] [1, 1] [0, 0] Xscen =
    some [[0, -1], [-1, -1], [-1, -1], [1, 2]] := by
  rw [fitN, scen_I, scen_num_cells]
  decide

/-- Witness for C1: the coverage statement instantiated at the scenario
fit of spec §8. -/
theorem fit_index_coverage_witness :
    fitN [1, 1] [1, 1] [0, 0] Xscen =
      some [[0, -1], [-1, -1], [-1, -1], [1, 2]] ∧
    ((∀ j, j < Xscen.length →
      (([[0, -1], [-1, -1], [-1, -1], [1, 2]] : List (List ℤ)).map
        (fun row => row.count ((j : ℕ) : ℤ))).sum = 1) ∧
    (∀ r, r < ([[0, -1], [-1, -1], [-1, -1], [1, 2]] :
        List (List ℤ)).length →
      (∀ j, j < Xscen.length →
        rowOfPoint (num_cells [1, 1])
          (pointIndices [1, 1] [1, 1] [0, 0] Xscen) j ≠ some r) →
      ∀ e ∈ getRow [[0, -1], [-1, -1], [-1, -1], [1, 2]] r,
        e = (-1 : ℤ))) :=
  ⟨scen_fit, fit_index_coverage [1, 1] [1, 1] [0, 0] Xscen _ scen_fit⟩

/-- C4: evaluation of `num_cells` at the claim's examples and at the tie
`cell_size = [4/5]` (where `1/prod(cell_size/2) = 5/2` exactly).  The
code's `np.round` rounds half to even and yields `num_cells = 2`, whereas
the round-half-toward-positive-infinity rule stated by the claim (and by
the class docstring, lines 76-81) yields 3 (`round` is Mathlib's
round-half-up).  The three concrete examples of the claim do hold. -/
theorem num_cells_tie_break :
    (1 : ℚ) / ((([4/5] : List ℚ).map (fun s => s / 2)).prod) = 5/2 ∧
    num_cells [4/5] = 2 ∧ round ((5 : ℚ)/2) = 3 ∧
    num_cells [1, 1, 1] = 8 ∧ num_cells [2, 2, 2] = 1 ∧
    num_cells [1/2, 1/2] = 16 := by
  refine ⟨by norm_num, ?_, ?_, ?_, ?_, ?_⟩
  · norm_num [num_cells, npRound, Int.fract, round_eq]
    try rfl
  · rw [round_eq]; norm_num
  · norm_num [num_cells, npRound, Int.fract, round_eq]
    try rfl
  · norm_num [num_cells, npRound, Int.fract, round_eq]
    try rfl
  · norm_num [num_cells, npRound, Int.fract, round_eq]
    try rfl

/-- C3: with `cell_size = [33/50, 33/50]` (i.e. 0.66), bounding radii
`[1, 1]` and center `(0, 0)`, the point at the maximum bounding-box
vertex `(1, 1)` receives the flattened index 10 even after the per-axis
clipping, while `num_cells = 9`: the index is outside `[0, num_cells)`
and `fit` fails with an `IndexError` (modelled as `none`) instead of
assigning the point to the last valid cell, contradicting the boundary
guarantee in the claim and in the docstring (lines 301-306). -/
theorem boundary_point_out_of_range :
    num_cells [33/50, 33/50] = 9 ∧
    pointIndices [33/50, 33/50] [1, 1] [0, 0] [[1, 1]] = [10] ∧
    fitN [33/50, 33/50] [1, 1] [0, 0] [[1, 1]] = none := by
  have hceil : ⌈(100:ℚ)/33⌉ = 4 := by
    rw [Int.ceil_eq_iff]
    norm_num
  have hR : num_cells [33/50, 33/50] = 9 := by
    norm_num [num_cells, npRound, Int.fract, round_eq]
    try rfl
  have hI : pointIndices [33/50, 33/50] [1, 1] [0, 0] [[1, 1]] = [10] := by
    norm_num [pointIndices, center_and_scale, cell_index, dim_factors,
      epsQ, List.scanl, hceil]
  refine ⟨hR, hI, ?_⟩
  rw [fitN, hI, hR]
  decide

lemma undo_center_and_scale_inv (x radii p : List ℚ)
    (hr : ∀ r ∈ radii, r ≠ 0) (hlen1 : p.length = x.length)
    (hlen2 : x.length = radii.length) :
    undo_center_and_scale x radii (center_and_scale x radii p) = p := by
  induction p generalizing x radii with
  | nil =>
    have hx : x = [] := List.length_eq_zero.mp (by simpa using hlen1.symm)
    subst hx
    have hrad : radii = [] :=
      List.length_eq_zero.mp (by simpa using hlen2.symm)
    subst hrad
    rfl
  | cons a p ih =>
    rcases x with _ | ⟨c, x'⟩
    · exact absurd hlen1 (by simp)
    rcases radii with _ | ⟨r, radii'⟩
    · exact absurd hlen2 (by simp)
    have hr0 : r ≠ 0 := hr r (List.mem_cons_self _ _)
    simp only [center_and_scale, undo_center_and_scale,
      List.zipWith_cons_cons] at ih ⊢
    rw [List.cons.injEq]
    constructor
    · rw [mul_comm, div_mul_cancel₀ _ hr0, sub_add_cancel]
    · exact ih x' radii' (fun rr hrr => hr rr (List.mem_cons_of_mem _ hrr))
        (by simpa using hlen1) (by simpa using hlen2)

/-- C9: `undo_center_and_scale` inverts `center_and_scale` exactly: for
every point matrix, center and bounding radii (nonzero per axis, as the
data model requires strictly positive radii) with matching dimensions,
denormalizing the normalized points returns the original matrix. -/
theorem denormalize_normalize_inverse (x radii : List ℚ)
    (X : List (List ℚ)) (hr : ∀ r ∈ radii, r ≠ 0)
    (hshape : ∀ p ∈ X, p.length = x.length)
    (hlen : x.length = radii.length) :
    (X.map (center_and_scale x radii)).map
      (undo_center_and_scale x radii) = X := by
  induction X with
  | nil => rfl
  | cons p X ih =>
    simp only [List.map_cons, List.cons.injEq]
    refine ⟨undo_center_and_scale_inv x radii p hr
      (hshape p (List.mem_cons_self _ _)) hlen, ?_⟩
    exact ih (fun q hq => hshape q (List.mem_cons_of_mem _ hq))

/-- Witness for C9 at a concrete instance. -/
theorem denormalize_normalize_inverse_witness :
    (([[3, 5]] : List (List ℚ)).map (center_and_scale [1, 2] [2, 4])).map
      (undo_center_and_scale [1, 2] [2, 4]) = [[3, 5]] :=
  denormalize_normalize_inverse [1, 2] [2, 4] [[3, 5]]
    (by decide) (by decide) (by decide)

/-- The mutable fitted state of a `ReceptiveField` instance: the indexing
matrix `N`, the center `x` and the point count `m`, all `None` before the
first fit (lines 121-123). -/
structure RFState where
  N : Option (List (List ℤ))
  x : Option (List ℚ)
  m : Option ℕ
deriving DecidableEq

/-- `fit` (lines 145-162) as a state transformer.  Returns the state after
the call together with a success flag; a raised exception keeps the state
mutated so far: the two `None` validations (lines 146-153) run before any
mutation, but line 155 assigns `self.x` before the indexing matrix is
computed (line 158), so a failure inside
`shadow_indexing_matrix_from_points` leaves the new center with the old
`N` and `m`. -/
def fit_step (cs radii : List ℚ) (st : RFState)
    (X : Option (List (List ℚ))) (x : Option (List ℚ)) : RFState × Bool :=
  match x with
  | none => (st, false)
  | some center =>
    match X with
    | none => (st, false)
    | some Xv =>
      let st1 : RFState := { st with x := some center }
      match fitN cs radii center Xv with
      | none => (st1, false)
      | some N => ({ st1 with N := some N, m := some Xv.length }, true)

/-- C7 amended: a `fit` call that fails input validation (missing `X` or
missing center) leaves the state completely unchanged, and any failing
`fit` call leaves `N` and `m` unchanged -- but not necessarily `x`, which
is overwritten before the indexing matrix is built. -/
theorem fit_not_atomic_amended (cs radii : List ℚ) (st : RFState)
    (X : Option (List (List ℚ))) (x : Option (List ℚ)) :
    (x = none ∨ X = none → fit_step cs radii st X x = (st, false)) ∧
    (∀ st', fit_step cs radii st X x = (st', false) →
      st'.N = st.N ∧ st'.m = st.m) := by
  constructor
  · rintro (h | h)
    · subst h; rfl
    · subst h
      cases x with
      | none => rfl
      | some c => rfl
  · intro st' h
    cases x with
    | none =>
      rw [fit_step] at h
      injection h with h1 _
      rw [← h1]
      exact ⟨rfl, rfl⟩
    | some c =>
      cases X with
      | none =>
        rw [fit_step] at h
        injection h with h1 _
        rw [← h1]
        exact ⟨rfl, rfl⟩
      | some Xv =>
        rw [fit_step] at h
        rcases hf : fitN cs radii c Xv with _ | N
        · rw [hf] at h
          simp only at h
          injection h with h1 _
          rw [← h1]
          exact ⟨rfl, rfl⟩
        · rw [hf] at h
          simp only at h
          injection h with _ h2
          exact absurd h2 (by simp)

/-- Witness for the amended C7 at concrete states. -/
theorem fit_not_atomic_amended_witness :
    fit_step [1, 1] [1, 1] ⟨some [[0]], some [0, 0], some 1⟩
      (some [[5, 5]]) none = (⟨some [[0]], some [0, 0], some 1⟩, false) ∧
    ((⟨some [[0]], some [5, 5], some 1⟩ : RFState).N =
        (⟨some [[0]], some [0, 0], some 1⟩ : RFState).N ∧
      (⟨some [[0]], some [5, 5], some 1⟩ : RFState).m =
        (⟨some [[0]], some [0, 0], some 1⟩ : RFState).m) :=
  ⟨(fit_not_atomic_amended [1, 1] [1, 1] _ _ _).1 (Or.inl rfl),
   (fit_not_atomic_amended [1, 1] [1, 1]
      ⟨some [[0]], some [0, 0], some 1⟩ (some []) (some [5, 5])).2
    ⟨some [[0]], some [5, 5], some 1⟩ (by decide)⟩

/-- C7 counterexample: after a successful scenario fit, a second `fit`
call on an empty point matrix (which makes `np.max` over an empty array
raise inside `shadow_indexing_matrix_from_points`) fails but has already
overwritten the stored center `x`: the prior fitted state is not left
unchanged. -/
theorem fit_overwrites_center_on_failure :
    fit_step [1, 1] [1, 1] ⟨none, none, none⟩ (some Xscen) (some [0, 0]) =
      (⟨some [[0, -1], [-1, -1], [-1, -1], [1, 2]], some [0, 0], some 3⟩,
        true) ∧
    fit_step [1, 1] [1, 1]
        ⟨some [[0, -1], [-1, -1], [-1, -1], [1, 2]], some [0, 0], some 3⟩
        (some []) (some [5, 5]) =
      (⟨some [[0, -1], [-1, -1], [-1, -1], [1, 2]], some [5, 5], some 3⟩,
        false) ∧
    (⟨some [[0, -1], [-1, -1], [-1, -1], [1, 2]], some [5, 5], some 3⟩ :
        RFState) ≠
      ⟨some [[0, -1], [-1, -1], [-1, -1], [1, 2]], some [0, 0], some 3⟩ := by
  refine ⟨?_, by decide, by decide⟩
  rw [fit_step]
  simp only
  rw [scen_fit]
  rfl

/-- `cells_per_axis` (line 180): `ceil((b - a)/cell_size)` per axis with
`b - a = 2`; `toNat` is the identity for positive cell sizes. -/
def cells_per_axis (cell_size : List ℚ) : List ℕ :=
  cell_size.map (fun s => (⌈(2 : ℚ) / s⌉).toNat)

/-- One axis coordinate of an empty cell's support point (lines 183-188):
`np.mod(np.floor(idx / np.prod(cells_per_axis[:j])), cells_per_axis[j])`;
for the in-range values the float arithmetic is exact and equals natural
division and modulus. -/
def num_steps (cell_size : List ℚ) (idx : ℕ) (j : ℕ) : ℕ :=
  (idx / ((cells_per_axis cell_size).take j).prod) %
    (cells_per_axis cell_size).getD j 1

/-- The support point built for an empty cell with flat index `idx`
(line 189): `a + num_steps * cell_size` with `a = (-1, ..., -1)`. -/
def sup_missing (cell_size : List ℚ) (idx : ℕ) : List ℚ :=
  (List.range cell_size.length).map
    (fun j => -1 + (num_steps cell_size idx j : ℚ) * cell_size.getD j 0)

/-- Modelled from the spec: the "theoretical cell-center coordinate" of
the cell with flat index `idx` (spec 4.4, interpolation step a) -- the
center lies half a cell size beyond the cell's minimum vertex. -/
def cellCenterSpec (cell_size : List ℚ) (idx : ℕ) : List ℚ :=
  (List.range cell_size.length).map
    (fun j => -1 + ((num_steps cell_size idx j : ℚ) + 1/2) *
      cell_size.getD j 0)

/-- The mixed-radix (Horner) encoding of per-axis cell coordinates `ks`
with per-axis radices `cz`: `sum_j ks_j * prod(cz[:j])`. -/
def flattenIdx : List ℕ → List ℕ → ℕ
  | k :: ks, c :: cz => k + c * flattenIdx ks cz
  | _, _ => 0

lemma cells_per_axis_ones : cells_per_axis [1, 1] = [2, 2] := by
  norm_num [cells_per_axis]
  rfl

/-- C8 counterexample: on the 2x2 grid of the scenario, the support
coordinate built for the empty cell with flat index 1 is `(0, -1)`, the
cell's minimum vertex -- not the cell center `(1/2, -1/2)` claimed by the
spec. -/
theorem sup_missing_not_center :
    sup_missing [1, 1] 1 = [0, -1] ∧
    cellCenterSpec [1, 1] 1 = [1/2, -1/2] ∧
    sup_missing [1, 1] 1 ≠ cellCenterSpec [1, 1] 1 := by
  have h0 : num_steps [1, 1] 1 0 = 1 := by
    rw [num_steps, cells_per_axis_ones]; rfl
  have h1 : num_steps [1, 1] 1 1 = 0 := by
    rw [num_steps, cells_per_axis_ones]; rfl
  refine ⟨?_, ?_, ?_⟩
  · rw [sup_missing]
    norm_num [List.range_succ, h0, h1]
  · rw [cellCenterSpec]
    norm_num [List.range_succ, h0, h1]
  · rw [sup_missing, cellCenterSpec]
    norm_num [List.range_succ, h0, h1]

/-- Decoding a mixed-radix encoded index recovers each axis coordinate:
the div/mod computation of `num_steps` inverts `flattenIdx`. -/
lemma flattenIdx_div_mod : ∀ (ks cz : List ℕ),
    List.Forall₂ (fun k c => k < c) ks cz → ∀ j, j < ks.length →
    flattenIdx ks cz / (cz.take j).prod % cz.getD j 1 = ks.getD j 0 := by
  intro ks cz hf
  induction hf with
  | nil => intro j hj; simp at hj
  | cons hkc htail ih =>
    rename_i k c ks' cz'
    intro j hj
    cases j with
    | zero =>
      simp only [List.take_zero, List.prod_nil, Nat.div_one, List.getD]
      show (k + c * flattenIdx ks' cz') % c = k
      rw [Nat.add_mul_mod_self_left, Nat.mod_eq_of_lt hkc]
    | succ j =>
      have hc : 0 < c := by omega
      have hdiv : flattenIdx (k :: ks') (c :: cz') /
          ((c :: cz').take (j + 1)).prod =
          flattenIdx ks' cz' / (cz'.take j).prod := by
        show (k + c * flattenIdx ks' cz') / (c * (cz'.take j).prod) = _
        rw [← Nat.div_div_eq_div_mul, Nat.add_mul_div_left _ _ hc,
          Nat.div_eq_of_lt hkc, Nat.zero_add]
      rw [hdiv]
      show flattenIdx ks' cz' / (cz'.take j).prod % cz'.getD j 1 =
        ks'.getD j 0
      exact ih j (by simpa using hj)

lemma scanl_mul_getD (g : ℚ → ℤ) : ∀ (l : List ℚ) (b : ℤ) (j : ℕ),
    j ≤ l.length →
    (l.scanl (fun acc s => acc * g s) b).getD j 1 =
      b * ((l.take j).map g).prod := by
  intro l
  induction l with
  | nil =>
    intro b j hj
    have hj0 : j = 0 := by simpa using hj
    subst hj0
    simp [List.scanl]
  | cons s l ih =>
    intro b j hj
    rw [List.scanl_cons]
    cases j with
    | zero => simp
    | succ j =>
      have hgd : (([b] ++ List.scanl (fun acc s => acc * g s) (b * g s)
          l)).getD (j + 1) 1 =
          (List.scanl (fun acc s => acc * g s) (b * g s) l).getD j 1 := rfl
      rw [hgd, ih (b * g s) j (by simpa using hj)]
      rw [List.take_succ_cons, List.map_cons, List.prod_cons]
      ring

/-- The integer `dim_factors` of the indexing encoding (lines 327-333)
agree with the prefix products of `cells_per_axis` used by the
interpolation decoding (lines 180-188), for positive cell sizes. -/
lemma dim_factors_eq (cell_size : List ℚ)
    (hpos : ∀ s ∈ cell_size, 0 < s) :
    ∀ j, j < cell_size.length →
    (dim_factors cell_size).getD j 1 =
      (((cells_per_axis cell_size).take j).prod : ℤ) := by
  intro j hj
  rw [dim_factors, scanl_mul_getD _ _ _ j
    (by rw [List.length_dropLast]; omega), one_mul]
  have hdrop : cell_size.dropLast.take j = cell_size.take j := by
    rw [List.dropLast_eq_take, List.take_take,
      min_eq_left (by omega)]
  rw [hdrop, cells_per_axis, ← List.map_take, Nat.cast_list_prod,
    List.map_map]
  have hmapeq : (cell_size.take j).map (fun s => ⌈(2 : ℚ) / s⌉) =
      (cell_size.take j).map
        ((Nat.cast : ℕ → ℤ) ∘ fun s => (⌈(2 : ℚ) / s⌉).toNat) := by
    apply List.map_congr_left
    intro a ha
    have hapos : 0 < a := hpos a (List.take_subset j cell_size ha)
    have hceil : 0 < ⌈(2 : ℚ) / a⌉ := by
      rw [Int.ceil_pos]
      positivity
    simp only [Function.comp_apply, Int.toNat_of_nonneg (le_of_lt hceil)]
  rw [← hmapeq]

/-- C8 amended: the support coordinate built for an empty cell is the
cell's minimum vertex `a + k * cell_size` (not its center): decoding the
mixed-radix flat index recovers the per-axis cell coordinates `ks`, the
support point is `-1 + ks_j * s_j` per axis, and the radices used by the
decoding are exactly the prefix products that appear as `dim_factors` in
the indexing encoding of `cell_index`. -/
theorem sup_missing_min_vertex (cell_size : List ℚ) (ks : List ℕ)
    (hpos : ∀ s ∈ cell_size, 0 < s)
    (hf : List.Forall₂ (fun k c => k < c) ks (cells_per_axis cell_size)) :
    sup_missing cell_size (flattenIdx ks (cells_per_axis cell_size)) =
      List.zipWith (fun (k : ℕ) (s : ℚ) => -1 + (k : ℚ) * s) ks
        cell_size ∧
    (∀ j, j < cell_size.length → (dim_factors cell_size).getD j 1 =
      (((cells_per_axis cell_size).take j).prod : ℤ)) := by
  have hlen2 : (cells_per_axis cell_size).length = cell_size.length := by
    simp [cells_per_axis]
  have hlen : ks.length = cell_size.length := by
    rw [← hlen2]; exact hf.length_eq
  refine ⟨?_, dim_factors_eq cell_size hpos⟩
  apply List.ext_getElem
  · simp [sup_missing, hlen]
  · intro i h1 h2
    have hi1 : i < cell_size.length := by simpa [sup_missing] using h1
    have hiks : i < ks.length := by omega
    simp only [sup_missing, List.getElem_map, List.getElem_range,
      List.getElem_zipWith]
    have hns : num_steps cell_size
        (flattenIdx ks (cells_per_axis cell_size)) i = ks.getD i 0 := by
      rw [num_steps]
      exact flattenIdx_div_mod ks _ hf i hiks
    rw [hns, List.getD_eq_getElem _ _ hiks, List.getD_eq_getElem _ _ hi1]

/-- Witness for the amended C8: cell coordinates (1, 0) on the 2x2 grid. -/
theorem sup_missing_min_vertex_witness :
    sup_missing [1, 1] (flattenIdx [1, 0] (cells_per_axis [1, 1])) =
      List.zipWith (fun (k : ℕ) (s : ℚ) => -1 + (k : ℚ) * s) [1, 0]
        [1, 1] ∧
    (∀ j, j < ([1, 1] : List ℚ).length → (dim_factors [1, 1]).getD j 1 =
      (((cells_per_axis [1, 1]).take j).prod : ℤ)) :=
  sup_missing_min_vertex [1, 1] [1, 0] (by norm_num)
    (by
      rw [cells_per_axis_ones]
      exact List.Forall₂.cons (by norm_num)
        (List.Forall₂.cons (by norm_num) List.Forall₂.nil))

/-- numpy dtypes relevant to `propagate_values`: the output buffer dtype
is taken from the values (`v.dtype` or `type(v[0])`, line 252). -/
inductive Dtype
  | tInt
  | tFloat
deriving DecidableEq

/-- Python exceptions raised by `propagate_values`, by their source:
`indexError` for an out-of-range index (`v[i]`, or `type(v[0])` on an
empty list, or a buffer index), `nanToIntError` for
`np.full(..., np.nan, dtype=int)` (ValueError: cannot convert NaN to
integer, line 253), `broadcastError` for a value whose shape cannot
broadcast into a buffer row (ValueError), and `nanPropagationError` for
the safe-mode NaN check (the ValueError of lines 263-267) -- the error
the spec names `PropagationError`. -/
inductive PyErr
  | indexError
  | nanToIntError
  | broadcastError
  | nanPropagationError
deriving DecidableEq

/-- The values sequence `v`: a sequence of scalars or a sequence of
vectors. -/
inductive PropInput
  | scalars (vs : List ℚ)
  | vectors (vs : List (List ℚ))

/-- The output: an `m`-vector (single-column case) or an `m x d` matrix
(line 269); `none` entries model NaN. -/
inductive PropOutput
  | vec (ys : List (Option ℚ))
  | mat (ys : List (List (Option ℚ)))
deriving DecidableEq

/-- `val_dim` (lines 247-250): `len(v[0])`, where scalars (no `len`)
give 1 via the caught exception, as does an empty list. -/
def val_dim : PropInput → ℕ
  | .scalars _ => 1
  | .vectors [] => 1
  | .vectors (v0 :: _) => v0.length

def inputLen : PropInput → ℕ
  | .scalars vs => vs.length
  | .vectors vs => vs.length

/-- `v[i]`, presented as a row (`none` is an IndexError). -/
def getVal : PropInput → ℕ → Option (List ℚ)
  | .scalars vs, i => (vs.get? i).map (fun q => [q])
  | .vectors vs, i => vs.get? i

/-- `np.full([rows, cols], np.nan, dtype=Ytype)` (line 253): an integer
dtype cannot hold NaN and raises ValueError; a float dtype gives a buffer
of NaN (`none`). -/
def npFullNan (dt : Dtype) (rows cols : ℕ) :
    Except PyErr (List (List (Option ℚ))) :=
  match dt with
  | .tInt => .error .nanToIntError
  | .tFloat => .ok (List.replicate rows (List.replicate cols none))

/-- numpy broadcast of a value into a row of width `d`: exact width, or a
single element replicated. -/
def broadcastVal (d : ℕ) (val : List ℚ) :
    Except PyErr (List (Option ℚ)) :=
  if val.length = d then .ok (val.map some)
  else if val.length = 1 then .ok (List.replicate d (some (val.headD 0)))
  else .error .broadcastError

/-- `Y[Ni] = value` for one row `Ni` of the indexing matrix: numpy fancy
assignment writes the broadcast value at each (wrap-around) index of
`Ni`; an index outside `[-len, len)` is an IndexError. -/
def scatterRow (len : ℕ) (bval : List (Option ℚ)) :
    List ℤ → List (List (Option ℚ)) →
    Except PyErr (List (List (Option ℚ)))
  | [], Y => .ok Y
  | e :: rest, Y =>
    match pyIdx len e with
    | none => .error .indexError
    | some p => scatterRow len bval rest (Y.set p bval)

/-- The population loop of `propagate_values` (lines 255-258): for the
`i`-th non-empty row `Ni`, evaluate `v[i]` and assign `Y[Ni] = v[i]`. -/
def scatterRows (len : ℕ) (v : PropInput) (d : ℕ) :
    ℕ → List (List ℤ) → List (List (Option ℚ)) →
    Except PyErr (List (List (Option ℚ)))
  | _, [], Y => .ok Y
  | i, row :: rest, Y =>
    match getVal v i with
    | none => .error .indexError
    | some val =>
      match broadcastVal d val with
      | .error e => .error e
      | .ok bval =>
        match scatterRow len bval row Y with
        | .error e => .error e
        | .ok Y1 => scatterRows len v d (i + 1) rest Y1

/-- Row `Ni` is non-empty: `np.sum(Ni >= 0, dtype=bool)` (line 256). -/
def rowNonEmpty (row : List ℤ) : Bool :=
  row.any (fun e => decide (0 ≤ e))

/-- The number of non-empty cells of the last fit (`R_p` in the
docstring of `propagate_values`). -/
def nonEmptyCount (N : List (List ℤ)) : ℕ :=
  (N.filter rowNonEmpty).length

/-- The position of cell `r` within the non-empty cells listed in
ascending cell-index order: the index `i` of the value `v_i` that
`propagate_values` sends to the points of cell `r`. -/
def cellRank (N : List (List ℤ)) (r : ℕ) : ℕ :=
  ((N.take r).filter rowNonEmpty).length

/-- `propagate_values` (lines 208-269): determine the per-value width,
allocate the `(m+1) x d` NaN buffer (the extra row absorbs writes through
the shadow index `-1`), scatter `v[i]` into the point positions of the
`i`-th non-empty cell, drop the shadow row, apply the safe-mode NaN
check, and return a matrix for width `> 1` or a flat vector otherwise. -/
def propagate_values (dt : Dtype) (N : List (List ℤ)) (m : ℕ)
    (v : PropInput) (safe : Bool) : Except PyErr PropOutput :=
  if inputLen v = 0 then .error .indexError
  else
    match npFullNan dt (m + 1) (val_dim v) with
    | .error e => .error e
    | .ok Y0 =>
      match scatterRows (m + 1) v (val_dim v) 0 (N.filter rowNonEmpty)
          Y0 with
      | .error e => .error e
      | .ok Y1 =>
        if safe && (Y1.dropLast.any (fun row =>
            row.any (fun c => c.isNone))) then
          .error .nanPropagationError
        else if 1 < val_dim v then .ok (.mat Y1.dropLast)
        else .ok (.vec (Y1.dropLast.map (fun row => row.getD 0 none)))

/-- C10: integer-typed values make `propagate_values` raise for both safe
modes: the output buffer is allocated by filling an integer-dtype array
with NaN (line 253), which raises ValueError before the `safe` flag is
ever consulted. -/
theorem propagate_int_dtype_error (N : List (List ℤ)) (m : ℕ)
    (v : PropInput) (safe : Bool) (hne : inputLen v ≠ 0) :
    propagate_values .tInt N m v safe = .error .nanToIntError := by
  rw [propagate_values, if_neg hne]
  rfl

/-- Witness for C10: propagating the integer values `[3, 1]` fails in
both safe modes. -/
theorem propagate_int_dtype_error_witness :
    propagate_values .tInt [[0, -1], [1, 2]] 3 (.scalars [3, 1]) true =
      .error .nanToIntError ∧
    propagate_values .tInt [[0, -1], [1, 2]] 3 (.scalars [3, 1]) false =
      .error .nanToIntError :=
  ⟨propagate_int_dtype_error _ _ _ _ (by decide),
   propagate_int_dtype_error _ _ _ _ (by decide)⟩

/-- Effect of one fancy assignment `Y[Ni] = bval`: every buffer position
hit by an entry of `Ni` holds `bval` afterwards; all others keep their
previous value. -/
lemma scatterRow_spec (len : ℕ) (bval : List (Option ℚ)) :
    ∀ (row : List ℤ) (Y Y' : List (List (Option ℚ))),
      scatterRow len bval row Y = .ok Y' → Y.length = len →
      Y'.length = len ∧
      ∀ p, p < len →
        ((∃ e ∈ row, pyIdx len e = some p) → Y'.getD p [] = bval) ∧
        ((∀ e ∈ row, pyIdx len e ≠ some p) →
          Y'.getD p [] = Y.getD p []) := by
  intro row
  induction row with
  | nil =>
    intro Y Y' h hY
    rw [scatterRow] at h
    injection h with h
    subst h
    refine ⟨hY, fun p hp => ⟨?_, fun _ => rfl⟩⟩
    rintro ⟨e, he, _⟩
    exact absurd he (by simp)
  | cons e rest ih =>
    intro Y Y' h hY
    rw [scatterRow] at h
    rcases hpy : pyIdx len e with _ | p0
    · rw [hpy] at h; exact absurd h (by simp)
    rw [hpy] at h
    simp only at h
    have hY1 : (Y.set p0 bval).length = len := by
      rw [List.length_set]; exact hY
    obtain ⟨hlen', hspec⟩ := ih _ _ h hY1
    refine ⟨hlen', fun p hp => ⟨?_, ?_⟩⟩
    · rintro ⟨e', he', hpe'⟩
      rcases List.mem_cons.mp he' with hq | hq
      · subst hq
        have hpp0 : p = p0 := by
          rw [hpy] at hpe'
          exact (Option.some.inj hpe').symm
        subst hpp0
        by_cases htouch : ∃ e2 ∈ rest, pyIdx len e2 = some p
        · exact (hspec p hp).1 htouch
        · push_neg at htouch
          rw [(hspec p hp).2 htouch]
          exact getD_set_self _ _ _ _ (by rw [hY]; exact hp)
      · exact (hspec p hp).1 ⟨e', hq, hpe'⟩
    · intro hnone
      have hrest : ∀ e2 ∈ rest, pyIdx len e2 ≠ some p := fun e2 he2 =>
        hnone e2 (List.mem_cons_of_mem _ he2)
      rw [(hspec p hp).2 hrest]
      have hp0p : p0 ≠ p := by
        intro hq
        exact hnone e (List.mem_cons_self _ _) (hq ▸ hpy)
      exact getD_set_ne _ _ _ _ _ hp0p

lemma scatterRow_ok (len : ℕ) (bval : List (Option ℚ)) :
    ∀ (row : List ℤ) (Y : List (List (Option ℚ))),
      (∀ e ∈ row, ∃ p, pyIdx len e = some p) →
      ∃ Y', scatterRow len bval row Y = .ok Y' := by
  intro row
  induction row with
  | nil => intro Y _; exact ⟨Y, rfl⟩
  | cons e rest ih =>
    intro Y hval
    obtain ⟨p, hp⟩ := hval e (List.mem_cons_self _ _)
    obtain ⟨Y', hY'⟩ := ih (Y.set p bval)
      (fun e2 he2 => hval e2 (List.mem_cons_of_mem _ he2))
    refine ⟨Y', ?_⟩
    rw [scatterRow, hp]
    exact hY'

/-- Effect of the whole population loop: a position not hit by any row is
unchanged; a position hit by exactly one row `k` holds the broadcast of
`v[i+k]`. -/
lemma scatterRows_spec (len : ℕ) (v : PropInput) (d : ℕ) :
    ∀ (rows : List (List ℤ)) (i : ℕ) (Y Y' : List (List (Option ℚ))),
      scatterRows len v d i rows Y = .ok Y' → Y.length = len →
      Y'.length = len ∧
      ∀ p, p < len →
        ((∀ row ∈ rows, ∀ e ∈ row, pyIdx len e ≠ some p) →
          Y'.getD p [] = Y.getD p []) ∧
        (∀ k, (hk : k < rows.length) →
          (∃ e ∈ rows.get ⟨k, hk⟩, pyIdx len e = some p) →
          (∀ k', (hk' : k' < rows.length) →
            (∃ e ∈ rows.get ⟨k', hk'⟩, pyIdx len e = some p) → k' = k) →
          ∃ val bv, getVal v (i + k) = some val ∧
            broadcastVal d val = .ok bv ∧ Y'.getD p [] = bv) := by
  intro rows
  induction rows with
  | nil =>
    intro i Y Y' h hY
    rw [scatterRows] at h
    injection h with h
    subst h
    refine ⟨hY, fun p hp => ⟨fun _ => rfl, fun k hk => ?_⟩⟩
    exact absurd hk (by simp)
  | cons row rest ih =>
    intro i Y Y' h hY
    rw [scatterRows] at h
    rcases hgv : getVal v i with _ | val
    · rw [hgv] at h; exact absurd h (by simp)
    rw [hgv] at h
    simp only at h
    rcases hbv : broadcastVal d val with e0 | bv
    · rw [hbv] at h; exact absurd h (by simp)
    rw [hbv] at h
    simp only at h
    rcases hsr : scatterRow len bv row Y with e0 | Y1
    · rw [hsr] at h; exact absurd h (by simp)
    rw [hsr] at h
    simp only at h
    obtain ⟨hY1len, hrowspec⟩ := scatterRow_spec len bv row Y Y1 hsr hY
    obtain ⟨hlen', hspec⟩ := ih (i + 1) Y1 Y' h hY1len
    refine ⟨hlen', fun p hp => ⟨?_, ?_⟩⟩
    · intro hnone
      rw [(hspec p hp).1 (fun r hr e he =>
        hnone r (List.mem_cons_of_mem _ hr) e he)]
      exact (hrowspec p hp).2 (fun e he =>
        hnone row (List.mem_cons_self _ _) e he)
    · intro k hk htouch huniq
      cases k with
      | zero =>
        have hrestnone : ∀ r ∈ rest, ∀ e ∈ r, pyIdx len e ≠ some p := by
          intro r hr e he hpe
          obtain ⟨k', hget⟩ := List.mem_iff_get.mp hr
          have hk'lt : k'.1 < rest.length := k'.2
          have hk'cons : k'.1 + 1 < (row :: rest).length := by
            simp only [List.length_cons]
            omega
          have hgeteq : (row :: rest).get ⟨k'.1 + 1, hk'cons⟩ =
              rest.get k' := by
            rcases k' with ⟨kv, hkv⟩
            rfl
          have hcontr := huniq (k'.1 + 1) hk'cons (by
            rw [hgeteq, hget]
            exact ⟨e, he, hpe⟩)
          omega
        rw [(hspec p hp).1 hrestnone]
        refine ⟨val, bv, by rw [Nat.add_zero]; exact hgv, hbv, ?_⟩
        exact (hrowspec p hp).1 (by simpa using htouch)
      | succ k =>
        have hkrest : k < rest.length := by
          simp only [List.length_cons] at hk
          omega
        have hgeteq : (row :: rest).get ⟨k + 1, hk⟩ =
            rest.get ⟨k, hkrest⟩ := rfl
        rw [hgeteq] at htouch
        have huniq' : ∀ k', (hk' : k' < rest.length) →
            (∃ e ∈ rest.get ⟨k', hk'⟩, pyIdx len e = some p) → k' = k := by
          intro k' hk' hex
          have hk'cons : k' + 1 < (row :: rest).length := by
            simp only [List.length_cons]
            omega
          have hgeteq' : (row :: rest).get ⟨k' + 1, hk'cons⟩ =
              rest.get ⟨k', hk'⟩ := rfl
          have hres := huniq (k' + 1) hk'cons (by rw [hgeteq']; exact hex)
          omega
        obtain ⟨val2, bv2, hv2, hb2, hy2⟩ :=
          (hspec p hp).2 k hkrest htouch huniq'
        refine ⟨val2, bv2, ?_, hb2, hy2⟩
        rw [show i + (k + 1) = i + 1 + k by omega]
        exact hv2

lemma pyIdx_coe (len j : ℕ) (hj : j < len) : pyIdx len (j : ℤ) = some j := by
  unfold pyIdx
  rw [if_pos ⟨by omega, by omega⟩]
  simp

lemma pyIdx_neg_one (m : ℕ) : pyIdx (m + 1) (-1) = some m := by
  unfold pyIdx
  rw [if_neg (by omega), if_pos ⟨by omega, by omega⟩]
  congr 1
  omega

lemma getRow_eq_nil {N : List (List ℤ)} {r : ℕ} (h : N.length ≤ r) :
    getRow N r = [] := by
  rw [getRow, List.getD_eq_default]
  exact h

/-- Every entry of a built matrix is the shadow `-1` or a point number
below the number of input points. -/
lemma buildN_entries {R : ℕ} {I : List ℤ} {N : List (List ℤ)}
    (h : buildN R I = some N) :
    ∀ r, ∀ e ∈ getRow N r, e = -1 ∨ (0 ≤ e ∧ e < I.length) := by
  intro r e he
  obtain ⟨W, _, hlen, hrows⟩ := buildN_rows h
  by_cases hr : r < R
  · obtain ⟨hrow, _⟩ := hrows r hr
    rw [hrow] at he
    rcases List.mem_append.mp he with hq | hq
    · obtain ⟨hge, hlt⟩ := assigned_bound R r I 0 e hq
      right
      constructor
      · exact_mod_cast hge
      · push_cast at hlt
        omega
    · left
      exact List.eq_of_mem_replicate hq
  · rw [getRow_eq_nil (by omega)] at he
    exact absurd he (by simp)

/-- Membership of a point number in a row of a built matrix is routing. -/
lemma buildN_mem_iff {R : ℕ} {I : List ℤ} {N : List (List ℤ)}
    (h : buildN R I = some N) (j r : ℕ) (hr : r < R) :
    ((j : ℤ) ∈ getRow N r) ↔ rowOfPoint R I j = some r := by
  obtain ⟨W, _, hlen, hrows⟩ := buildN_rows h
  obtain ⟨hrow, _⟩ := hrows r hr
  rw [hrow, List.mem_append]
  constructor
  · rintro (hq | hq)
    · obtain ⟨k, i0, h1, h2, h3⟩ := mem_assigned R r I 0 _ hq
      have hkj : k = j := by omega
      subst hkj
      rw [rowOfPoint, h1]
      simpa using h2
    · exfalso
      have := List.eq_of_mem_replicate hq
      omega
  · intro hro
    left
    rw [rowOfPoint] at hro
    rcases hg : I.get? j with _ | i0
    · rw [hg] at hro; exact absurd hro (by simp)
    rw [hg] at hro
    simp only [Option.some_bind] at hro
    have := assigned_mem R r I 0 j i0 hg hro
    simpa using this

lemma two_get_le_sum : ∀ (l : List ℕ) (k1 k2 : ℕ) (h12 : k1 < k2)
    (hk2 : k2 < l.length),
    l.get ⟨k1, by omega⟩ + l.get ⟨k2, hk2⟩ ≤ l.sum := by
  intro l
  induction l with
  | nil => intro k1 k2 h12 hk2; simp at hk2
  | cons a t ih =>
    intro k1 k2 h12 hk2
    cases k1 with
    | zero =>
      cases k2 with
      | zero => omega
      | succ k2 =>
        have hk2t : k2 < t.length := by simpa using hk2
        have hmem : t.get ⟨k2, hk2t⟩ ∈ t := List.get_mem t _ hk2t
        have := List.single_le_sum (fun (x : ℕ) _ => Nat.zero_le x) _ hmem
        show a + t.get ⟨k2, hk2t⟩ ≤ a + t.sum
        omega
    | succ k1 =>
      cases k2 with
      | zero => omega
      | succ k2 =>
        have hk2t : k2 < t.length := by simpa using hk2
        have := ih k1 k2 (by omega) hk2t
        show t.get ⟨k1, by omega⟩ + t.get ⟨k2, hk2t⟩ ≤ a + t.sum
        omega

/-- Position of row `r` inside the filtered list of rows satisfying `p`:
the filtered list's entry at `cellRank` is row `r` itself. -/
lemma filter_get_rank {α : Type} (q : α → Bool) :
    ∀ (l : List α) (r : ℕ) (hr : r < l.length),
      q (l.get ⟨r, hr⟩) = true →
      ((l.take r).filter q).length < (l.filter q).length ∧
      (l.filter q).get? ((l.take r).filter q).length =
        some (l.get ⟨r, hr⟩) := by
  intro l
  induction l with
  | nil => intro r hr; simp at hr
  | cons a t ih =>
    intro r hr hq
    cases r with
    | zero =>
      simp only [List.take_zero, List.filter_nil, List.length_nil]
      rw [List.filter_cons, if_pos (by simpa using hq)]
      constructor
      · simp
      · rfl
    | succ r =>
      have hrt : r < t.length := by simpa using hr
      have hqt : q (t.get ⟨r, hrt⟩) = true := hq
      obtain ⟨ih1, ih2⟩ := ih r hrt hqt
      rw [List.take_succ_cons, List.filter_cons, List.filter_cons]
      by_cases hqa : q a
      · rw [if_pos hqa, if_pos hqa]
        simp only [List.length_cons]
        constructor
        · omega
        · rw [List.get?_cons_succ]
          exact ih2
      · rw [if_neg hqa, if_neg hqa]
        exact ⟨ih1, ih2⟩

lemma getRow_eq_get {N : List (List ℤ)} {r : ℕ} (hr : r < N.length) :
    getRow N r = N.get ⟨r, hr⟩ := by
  rw [getRow, List.getD_eq_getElem _ _ hr]
  rfl

lemma sum_map_filter_le {α : Type} (q : α → Bool) (f : α → ℕ) :
    ∀ l : List α, ((l.filter q).map f).sum ≤ (l.map f).sum := by
  intro l
  induction l with
  | nil => simp
  | cons a t ih =>
    rw [List.filter_cons]
    by_cases hq : q a
    · rw [if_pos hq]
      simp only [List.map_cons, List.sum_cons]
      omega
    · rw [if_neg hq]
      simp only [List.map_cons, List.sum_cons]
      omega

lemma broadcastVal_all_some {d : ℕ} {val : List ℚ} {bv : List (Option ℚ)}
    (h : broadcastVal d val = .ok bv) : ∀ c ∈ bv, c.isNone = false := by
  rw [broadcastVal] at h
  split at h
  · injection h with h
    subst h
    intro c hc
    obtain ⟨q, _, hq⟩ := List.mem_map.mp hc
    rw [← hq]
    rfl
  · split at h
    · injection h with h
      subst h
      intro c hc
      rw [List.eq_of_mem_replicate hc]
      rfl
    · exact absurd h (by simp)

lemma getD_dropLast {α : Type} (l : List α) (j : ℕ) (d : α)
    (h : j + 1 < l.length) : l.dropLast.getD j d = l.getD j d := by
  rw [List.getD_eq_getElem _ _ (by rw [List.length_dropLast]; omega),
    List.getD_eq_getElem _ _ (by omega), List.getElem_dropLast]

lemma getD_map {α β : Type} (f : α → β) (l : List α) (j : ℕ) (d : β)
    (d0 : α) (h : j < l.length) :
    (l.map f).getD j d = f (l.getD j d0) := by
  rw [List.getD_eq_getElem _ _ (by simpa using h),
    List.getD_eq_getElem _ _ h, List.getElem_map]

lemma fitN_exists_row {cs radii x : List ℚ} {X : List (List ℚ)}
    {N : List (List ℤ)} (h : fitN cs radii x X = some N) (j : ℕ)
    (hj : j < X.length) : ∃ r, r < N.length ∧ (j : ℤ) ∈ getRow N r := by
  have hsum : (N.map (fun row => row.count ((j : ℕ) : ℤ))).sum = 1 := by
    rw [fitN] at h
    exact buildN_count h j (by rw [pointIndices_length]; exact hj)
  by_contra hno
  push_neg at hno
  have hz : (N.map (fun row => row.count ((j : ℕ) : ℤ))).sum = 0 := by
    apply List.sum_eq_zero
    intro c hc
    obtain ⟨row, hrow, hcount⟩ := List.mem_map.mp hc
    obtain ⟨⟨r, hr⟩, hget⟩ := List.mem_iff_get.mp hrow
    rw [← hcount]
    apply List.count_eq_zero_of_not_mem
    intro hmem
    exact hno r hr (by rw [getRow_eq_get hr, hget]; exact hmem)
  omega

lemma fitN_pos {cs radii x : List ℚ} {X : List (List ℚ)}
    {N : List (List ℤ)} (h : fitN cs radii x X = some N) :
    0 < X.length ∧ 0 < nonEmptyCount N := by
  have hX : X ≠ [] := by
    intro hq
    subst hq
    exact Option.noConfusion h
  have hj0 : 0 < X.length := List.length_pos.mpr hX
  obtain ⟨r, hr, hmem⟩ := fitN_exists_row h 0 hj0
  have hne : rowNonEmpty (getRow N r) = true := by
    rw [rowNonEmpty, List.any_eq_true]
    refine ⟨((0 : ℕ) : ℤ), hmem, by decide⟩
  have hmemN : getRow N r ∈ N := by
    rw [getRow_eq_get hr]
    exact List.get_mem N _ hr
  have hfil : getRow N r ∈ N.filter rowNonEmpty :=
    List.mem_filter.mpr ⟨hmemN, hne⟩
  exact ⟨hj0, List.length_pos.mpr (List.ne_nil_of_mem hfil)⟩

lemma touch_iff_mem {m : ℕ} {row : List ℤ}
    (hent : ∀ e ∈ row, e = -1 ∨ (0 ≤ e ∧ e < (m : ℤ))) (j : ℕ)
    (hj : j < m) :
    (∃ e ∈ row, pyIdx (m + 1) e = some j) ↔ (j : ℤ) ∈ row := by
  constructor
  · rintro ⟨e, he, hpe⟩
    rcases hent e he with hq | ⟨hq1, hq2⟩
    · subst hq
      rw [pyIdx_neg_one] at hpe
      have := Option.some.inj hpe
      omega
    · have he2 : e = ((e.toNat : ℕ) : ℤ) := by omega
      rw [he2, pyIdx_coe _ _ (by omega)] at hpe
      have := Option.some.inj hpe
      have hej : e = (j : ℤ) := by omega
      rw [← hej]
      exact he
  · intro hmem
    exact ⟨(j : ℤ), hmem, pyIdx_coe _ _ (by omega)⟩

lemma scatterRows_ok (len : ℕ) (v : PropInput) (d : ℕ) :
    ∀ (rows : List (List ℤ)) (i : ℕ) (Y : List (List (Option ℚ))),
      (∀ k, k < rows.length → ∃ val bv, getVal v (i + k) = some val ∧
        broadcastVal d val = .ok bv) →
      (∀ row ∈ rows, ∀ e ∈ row, ∃ p, pyIdx len e = some p) →
      ∃ Y', scatterRows len v d i rows Y = .ok Y' := by
  intro rows
  induction rows with
  | nil =>
    intro i Y _ _
    exact ⟨Y, rfl⟩
  | cons row rest ih =>
    intro i Y hv hval
    obtain ⟨val, bv, hgv, hbv⟩ := hv 0 (by simp)
    rw [Nat.add_zero] at hgv
    obtain ⟨Y1, hY1⟩ := scatterRow_ok len bv row Y
      (fun e he => hval row (List.mem_cons_self _ _) e he)
    obtain ⟨Y', hY'⟩ := ih (i + 1) Y1
      (fun k hk => by
        obtain ⟨v2, b2, h2, h3⟩ := hv (k + 1)
          (by simp only [List.length_cons]; omega)
        refine ⟨v2, b2, ?_, h3⟩
        rw [show i + 1 + k = i + (k + 1) by omega]
        exact h2)
      (fun r hr => hval r (List.mem_cons_of_mem _ hr))
    refine ⟨Y', ?_⟩
    rw [scatterRows, hgv]
    simp only
    rw [hbv]
    simp only
    rw [hY1]
    exact hY'

/-- Master lemma for successful propagation: with a float dtype and one
broadcastable value per non-empty cell, `propagate_values` succeeds and
every point `j` receives the broadcast value of the cell that contains it
(`cellRank` positions the cell among the non-empty ones). -/
lemma propagate_values_ok (cs radii x : List ℚ) (X : List (List ℚ))
    (N : List (List ℤ)) (h : fitN cs radii x X = some N)
    (v : PropInput) (hlen : inputLen v = nonEmptyCount N)
    (hbc : ∀ k, k < nonEmptyCount N → ∃ val bv, getVal v k = some val ∧
      broadcastVal (val_dim v) val = .ok bv) (safe : Bool) :
    ∃ Y, propagate_values .tFloat N X.length v safe =
        (if 1 < val_dim v then .ok (.mat Y)
         else .ok (.vec (Y.map (fun row => row.getD 0 none)))) ∧
      Y.length = X.length ∧
      ∀ j r, j < X.length → (j : ℤ) ∈ getRow N r →
        ∃ val bv, getVal v (cellRank N r) = some val ∧
          broadcastVal (val_dim v) val = .ok bv ∧ Y.getD j [] = bv := by
  have hb : buildN (num_cells cs) (pointIndices cs radii x X) = some N := by
    rw [fitN] at h
    exact h
  have hIlen : (pointIndices cs radii x X).length = X.length :=
    pointIndices_length cs radii x X
  obtain ⟨hm0, hK0⟩ := fitN_pos h
  have hent : ∀ r, ∀ e ∈ getRow N r,
      e = -1 ∨ (0 ≤ e ∧ e < (X.length : ℤ)) := by
    intro r e he
    have hb2 := buildN_entries hb r e he
    rw [hIlen] at hb2
    exact hb2
  have hval : ∀ row ∈ N.filter rowNonEmpty, ∀ e ∈ row,
      ∃ p, pyIdx (X.length + 1) e = some p := by
    intro row hrow e he
    obtain ⟨⟨r, hr⟩, hget⟩ :=
      List.mem_iff_get.mp (List.mem_of_mem_filter hrow)
    have herow : e ∈ getRow N r := by
      rw [getRow_eq_get hr, hget]
      exact he
    rcases hent r e herow with hq | ⟨hq1, hq2⟩
    · subst hq
      exact ⟨X.length, pyIdx_neg_one _⟩
    · refine ⟨e.toNat, ?_⟩
      have he2 : e = ((e.toNat : ℕ) : ℤ) := by omega
      rw [he2]
      exact pyIdx_coe _ _ (by omega)
  have hrows_len : (N.filter rowNonEmpty).length = nonEmptyCount N := rfl
  obtain ⟨Y1, hY1⟩ := scatterRows_ok (X.length + 1) v (val_dim v)
    (N.filter rowNonEmpty) 0
    (List.replicate (X.length + 1) (List.replicate (val_dim v) none))
    (fun k hk => by
      rw [Nat.zero_add]
      exact hbc k (by rw [hrows_len] at hk; exact hk))
    hval
  obtain ⟨hY1len, hspec⟩ := scatterRows_spec (X.length + 1) v (val_dim v)
    (N.filter rowNonEmpty) 0 _ Y1 hY1 (by rw [List.length_replicate])
  have hsum1 : ∀ j : ℕ, j < X.length →
      ((N.filter rowNonEmpty).map
        (fun row => row.count ((j : ℕ) : ℤ))).sum ≤ 1 := by
    intro j hj
    have htot : (N.map (fun row => row.count ((j : ℕ) : ℤ))).sum = 1 :=
      buildN_count hb j (by rw [hIlen]; exact hj)
    have hle := sum_map_filter_le rowNonEmpty
      (fun row => row.count ((j : ℕ) : ℤ)) N
    omega
  have hpoint : ∀ j r, j < X.length → (j : ℤ) ∈ getRow N r →
      ∃ val bv, getVal v (cellRank N r) = some val ∧
        broadcastVal (val_dim v) val = .ok bv ∧ Y1.getD j [] = bv := by
    intro j r hj hmem
    have hrN : r < N.length := by
      by_contra hq
      rw [getRow_eq_nil (by omega)] at hmem
      exact absurd hmem (by simp)
    have hne : rowNonEmpty (N.get ⟨r, hrN⟩) = true := by
      rw [rowNonEmpty, List.any_eq_true]
      refine ⟨(j : ℤ), ?_, by simp⟩
      rw [← getRow_eq_get hrN]
      exact hmem
    obtain ⟨hrank_lt, hrank_get⟩ :=
      filter_get_rank rowNonEmpty N r hrN hne
    have hget2 : (N.filter rowNonEmpty).get ⟨cellRank N r, hrank_lt⟩ =
        getRow N r := by
      have hg := List.get?_eq_get hrank_lt
      rw [hg] at hrank_get
      show (N.filter rowNonEmpty).get
        ⟨((N.take r).filter rowNonEmpty).length, hrank_lt⟩ = getRow N r
      rw [Option.some.inj hrank_get, getRow_eq_get hrN]
    obtain ⟨val, bv, h1, h2, h3⟩ := (hspec j (by omega)).2 (cellRank N r)
      hrank_lt
      (by
        rw [hget2]
        exact ⟨(j : ℤ), hmem, pyIdx_coe _ _ (by omega)⟩)
      (by
        intro k' hk' hex
        -- the row at k' also contains j
        have hmemk' : (j : ℤ) ∈ (N.filter rowNonEmpty).get ⟨k', hk'⟩ := by
          have hentk' : ∀ e ∈ (N.filter rowNonEmpty).get ⟨k', hk'⟩,
              e = -1 ∨ (0 ≤ e ∧ e < (X.length : ℤ)) := by
            intro e he
            obtain ⟨⟨r2, hr2⟩, hget3⟩ := List.mem_iff_get.mp
              (List.mem_of_mem_filter (List.get_mem _ _ hk'))
            apply hent r2
            rw [getRow_eq_get hr2, hget3]
            exact he
          exact (touch_iff_mem hentk' j hj).mp hex
        by_contra hq
        -- two distinct filtered rows contain j: counts sum at least 2
        have hmemrank : (j : ℤ) ∈
            (N.filter rowNonEmpty).get ⟨cellRank N r, hrank_lt⟩ := by
          rw [hget2]
          exact hmem
        have hcount : ∀ (k : ℕ) (hk : k < (N.filter rowNonEmpty).length),
            (j : ℤ) ∈ (N.filter rowNonEmpty).get ⟨k, hk⟩ →
            1 ≤ ((N.filter rowNonEmpty).map
              (fun row => row.count ((j : ℕ) : ℤ))).get
                ⟨k, by rw [List.length_map]; exact hk⟩ := by
          intro k hk hmemk
          have hgm : ((N.filter rowNonEmpty).map
              (fun row => row.count ((j : ℕ) : ℤ))).get
                ⟨k, by rw [List.length_map]; exact hk⟩ =
              ((N.filter rowNonEmpty).get ⟨k, hk⟩).count ((j : ℕ) : ℤ) := by
            simp
          rw [hgm]
          have hcz : ((N.filter rowNonEmpty).get ⟨k, hk⟩).count
              ((j : ℕ) : ℤ) ≠ 0 :=
            fun hz => (List.count_eq_zero.mp hz) hmemk
          omega
        have hc1 := hcount k' hk' hmemk'
        have hc2 := hcount (cellRank N r) hrank_lt hmemrank
        rcases lt_trichotomy k' (cellRank N r) with ho | ho | ho
        · have hs := two_get_le_sum ((N.filter rowNonEmpty).map
            (fun row => row.count ((j : ℕ) : ℤ))) k' (cellRank N r) ho
            (by rw [List.length_map]; exact hrank_lt)
          have := hsum1 j hj
          omega
        · exact hq ho
        · have hs := two_get_le_sum ((N.filter rowNonEmpty).map
            (fun row => row.count ((j : ℕ) : ℤ))) (cellRank N r) k' ho
            (by rw [List.length_map]; exact hk')
          have := hsum1 j hj
          omega)
    rw [Nat.zero_add] at h1
    exact ⟨val, bv, h1, h2, h3⟩
  have hnonan : (Y1.dropLast.any (fun row =>
      row.any (fun c => c.isNone))) = false := by
    rw [List.any_eq_false]
    intro row hrow
    rw [Bool.not_eq_true, List.any_eq_false]
    intro c hc
    obtain ⟨⟨p, hp⟩, hget⟩ := List.mem_iff_get.mp hrow
    have hplen : p < X.length := by
      rw [List.length_dropLast, hY1len] at hp
      omega
    obtain ⟨r, hrN, hmem⟩ := fitN_exists_row h p hplen
    obtain ⟨val, bv, _, hbv, hYp⟩ := hpoint p r hplen hmem
    have hrowp : row = Y1.getD p [] := by
      rw [← hget, List.get_eq_getElem, List.getElem_dropLast]
      rw [List.getD_eq_getElem Y1 [] (by omega)]
    rw [hrowp, hYp] at hc
    rw [Bool.not_eq_true]
    exact broadcastVal_all_some hbv c hc
  refine ⟨Y1.dropLast, ?_, ?_, ?_⟩
  · rw [propagate_values, if_neg (by omega)]
    simp only [npFullNan]
    rw [hY1]
    simp only
    rw [hnonan]
    simp only [Bool.and_false, Bool.false_eq_true, if_false]
  · rw [List.length_dropLast, hY1len]
    omega
  · intro j r hj hmem
    obtain ⟨val, bv, h1, h2, h3⟩ := hpoint j r hj hmem
    refine ⟨val, bv, h1, h2, ?_⟩
    rw [getD_dropLast _ _ _ (by rw [hY1len]; omega)]
    exact h3

/-- C2: for every fitted receptive field and values sequence holding one
value per non-empty cell in ascending cell-index order,
`propagate_values` returns an output of length `m` in which point `j`'s
entry is the value of the cell containing `j` per the indexing matrix;
vector values of uniform width `d ≥ 2` (the spec's "multi-valued") yield
an `m x d` matrix, scalar values an `m`-length vector. -/
theorem propagate_values_contract (cs radii x : List ℚ)
    (X : List (List ℚ)) (N : List (List ℤ))
    (h : fitN cs radii x X = some N) (vs : List ℚ) (vv : List (List ℚ))
    (d : ℕ) (hd : 2 ≤ d) (hvs : vs.length = nonEmptyCount N)
    (hvv : vv.length = nonEmptyCount N) (hvvd : ∀ u ∈ vv, u.length = d)
    (safe : Bool) :
    (∃ ys, propagate_values .tFloat N X.length (.scalars vs) safe =
        .ok (.vec ys) ∧ ys.length = X.length ∧
      ∀ j r, j < X.length → (j : ℤ) ∈ getRow N r →
        ys.getD j none = some (vs.getD (cellRank N r) 0)) ∧
    (∃ Ys, propagate_values .tFloat N X.length (.vectors vv) safe =
        .ok (.mat Ys) ∧ Ys.length = X.length ∧
      ∀ j r, j < X.length → (j : ℤ) ∈ getRow N r →
        Ys.getD j [] = (vv.getD (cellRank N r) []).map some) := by
  constructor
  · obtain ⟨Y, hprop, hYlen, hvals⟩ := propagate_values_ok cs radii x X N h
      (.scalars vs) hvs
      (fun k hk => by
        have hkvs : k < vs.length := by omega
        refine ⟨[vs.get ⟨k, hkvs⟩], [some (vs.get ⟨k, hkvs⟩)], ?_, ?_⟩
        · show ((vs.get? k).map (fun q => [q])) = _
          rw [List.get?_eq_get hkvs]
          rfl
        · rw [broadcastVal]
          rfl)
      safe
    rw [if_neg (by simp [val_dim])] at hprop
    refine ⟨Y.map (fun row => row.getD 0 none), hprop, by
      rw [List.length_map]; exact hYlen, ?_⟩
    intro j r hj hmem
    obtain ⟨val, bv, hget, hbc, hY⟩ := hvals j r hj hmem
    obtain ⟨q, hq1, hq2⟩ := Option.map_eq_some'.mp hget
    have hrank : cellRank N r < vs.length := by
      by_contra hq
      rw [List.get?_eq_none.mpr (by omega)] at hq1
      exact Option.noConfusion hq1
    have hqval : q = vs.get ⟨cellRank N r, hrank⟩ := by
      rw [List.get?_eq_get hrank] at hq1
      exact (Option.some.inj hq1).symm
    subst hq2
    rw [broadcastVal] at hbc
    rw [if_pos (by rfl)] at hbc
    have hbv : bv = [some q] := (Except.ok.inj hbc).symm
    rw [getD_map _ _ _ _ [] (by omega), hY, hbv]
    rw [hqval, List.getD_eq_getElem _ _ hrank]
    rfl
  · obtain ⟨hm0, hK0⟩ := fitN_pos h
    rcases hvv0 : vv with _ | ⟨v0, rest⟩
    · rw [hvv0] at hvv
      simp at hvv
      omega
    rw [← hvv0]
    have hvd : val_dim (.vectors vv) = d := by
      rw [hvv0, val_dim]
      exact hvvd v0 (by rw [hvv0]; exact List.mem_cons_self _ _)
    obtain ⟨Y, hprop, hYlen, hvals⟩ := propagate_values_ok cs radii x X N h
      (.vectors vv) hvv
      (fun k hk => by
        have hkvv : k < vv.length := by omega
        refine ⟨vv.get ⟨k, hkvv⟩, (vv.get ⟨k, hkvv⟩).map some, ?_, ?_⟩
        · show vv.get? k = _
          rw [List.get?_eq_get hkvv]
        · rw [broadcastVal, if_pos (by
            rw [hvd]
            exact hvvd _ (List.get_mem vv _ hkvv))])
      safe
    rw [if_pos (by rw [hvd]; omega)] at hprop
    refine ⟨Y, hprop, hYlen, ?_⟩
    intro j r hj hmem
    obtain ⟨val, bv, hget, hbc, hY⟩ := hvals j r hj hmem
    have hrank : cellRank N r < vv.length := by
      by_contra hq
      rw [show getVal (.vectors vv) (cellRank N r) = vv.get? (cellRank N r)
        from rfl, List.get?_eq_none.mpr (by omega)] at hget
      exact Option.noConfusion hget
    have hval : val = vv.get ⟨cellRank N r, hrank⟩ := by
      rw [show getVal (.vectors vv) (cellRank N r) = vv.get? (cellRank N r)
        from rfl, List.get?_eq_get hrank] at hget
      exact (Option.some.inj hget).symm
    rw [broadcastVal, if_pos (by
      rw [hvd, hval]
      exact hvvd _ (List.get_mem vv _ hrank))] at hbc
    have hbv : bv = val.map some := (Except.ok.inj hbc).symm
    rw [hY, hbv, hval, List.getD_eq_getElem _ _ hrank]
    rfl


/-- Witness for C2 at the scenario fit: scalars `[10, 20]` and 2-vectors
`[[1, 2], [3, 4]]`, one value per non-empty cell. -/
theorem propagate_values_contract_witness :
    (∃ ys, propagate_values .tFloat
        [[0, -1], [-1, -1], [-1, -1], [1, 2]] Xscen.length
        (.scalars [10, 20]) true = .ok (.vec ys) ∧
      ys.length = Xscen.length ∧
      ∀ j r, j < Xscen.length →
        (j : ℤ) ∈ getRow [[0, -1], [-1, -1], [-1, -1], [1, 2]] r →
        ys.getD j none = some (([10, 20] : List ℚ).getD
          (cellRank [[0, -1], [-1, -1], [-1, -1], [1, 2]] r) 0)) ∧
    (∃ Ys, propagate_values .tFloat
        [[0, -1], [-1, -1], [-1, -1], [1, 2]] Xscen.length
        (.vectors [[1, 2], [3, 4]]) true = .ok (.mat Ys) ∧
      Ys.length = Xscen.length ∧
      ∀ j r, j < Xscen.length →
        (j : ℤ) ∈ getRow [[0, -1], [-1, -1], [-1, -1], [1, 2]] r →
        Ys.getD j [] = ((([[1, 2], [3, 4]]) : List (List ℚ)).getD
          (cellRank [[0, -1], [-1, -1], [-1, -1], [1, 2]] r) []).map
            some) :=
  propagate_values_contract [1, 1] [1, 1] [0, 0] Xscen
    [[0, -1], [-1, -1], [-1, -1], [1, 2]] scen_fit [10, 20]
    [[1, 2], [3, 4]] 2 (by omega) (by decide) (by decide) (by decide) true

instance exceptDecEq {e a : Type} [DecidableEq e] [DecidableEq a] :
    DecidableEq (Except e a)
  | .error e1, .error e2 =>
    if h : e1 = e2 then .isTrue (by rw [h]) else .isFalse (by simp [h])
  | .error e1, .ok a2 => .isFalse (by simp)
  | .ok a1, .error e2 => .isFalse (by simp)
  | .ok a1, .ok a2 =>
    if h : a1 = a2 then .isTrue (by rw [h]) else .isFalse (by simp [h])

/-- With fewer values than rows to fill, the population loop hits `v[i]`
past the end of `v` and raises IndexError (all writes before that point
succeed when every value below the length broadcasts and every row entry
has a valid buffer index). -/
lemma scatterRows_short (len d : ℕ) (v : PropInput)
    (hnone : ∀ k, inputLen v ≤ k → getVal v k = none)
    (hok : ∀ k, k < inputLen v → ∃ val bv, getVal v k = some val ∧
      broadcastVal d val = .ok bv) :
    ∀ (rows : List (List ℤ)) (i : ℕ) (Y : List (List (Option ℚ))),
      (∀ row ∈ rows, ∀ e ∈ row, ∃ p, pyIdx len e = some p) →
      inputLen v < i + rows.length → i ≤ inputLen v →
      scatterRows len v d i rows Y = .error .indexError := by
  intro rows
  induction rows with
  | nil =>
    intro i Y _ hlt hle
    simp only [List.length_nil, Nat.add_zero] at hlt
    omega
  | cons row rest ih =>
    intro i Y hval hlt hle
    rcases eq_or_lt_of_le hle with hq | hq
    · rw [scatterRows, hnone i (by omega)]
    · obtain ⟨val, bv, hgv, hbv⟩ := hok i hq
      rw [scatterRows, hgv]
      simp only
      rw [hbv]
      simp only
      obtain ⟨Y1, hY1⟩ := scatterRow_ok len bv row Y
        (fun e he => hval row (List.mem_cons_self _ _) e he)
      rw [hY1]
      exact ih (i + 1) Y1
        (fun r hr => hval r (List.mem_cons_of_mem _ hr))
        (by simp only [List.length_cons] at hlt; omega) (by omega)

/-- Every entry of the non-empty rows of a fitted matrix has a valid
index into the `(m+1)`-row propagation buffer (`-1` wraps to the shadow
row `m`; a point number is its own index). -/
lemma fitN_filter_entries_valid (cs radii x : List ℚ)
    (X : List (List ℚ)) (N : List (List ℤ))
    (h : fitN cs radii x X = some N) :
    ∀ row ∈ N.filter rowNonEmpty, ∀ e ∈ row,
      ∃ p, pyIdx (X.length + 1) e = some p := by
  have hb : buildN (num_cells cs) (pointIndices cs radii x X) =
      some N := by
    rw [fitN] at h
    exact h
  have hIlen : (pointIndices cs radii x X).length = X.length :=
    pointIndices_length cs radii x X
  intro row hrow e he
  obtain ⟨⟨r, hr⟩, hget⟩ :=
    List.mem_iff_get.mp (List.mem_of_mem_filter hrow)
  have herow : e ∈ getRow N r := by
    rw [getRow_eq_get hr, hget]
    exact he
  rcases buildN_entries hb r e herow with hq2 | ⟨hq1, hq2⟩
  · subst hq2
    exact ⟨X.length, pyIdx_neg_one _⟩
  · rw [hIlen] at hq2
    refine ⟨e.toNat, ?_⟩
    have he2 : e = ((e.toNat : ℕ) : ℤ) := by omega
    rw [he2]
    exact pyIdx_coe _ _ (by omega)

/-- The number of per-point entries of a propagation output (rows of the
matrix form, elements of the vector form). -/
def outputLen : PropOutput → ℕ
  | .vec ys => ys.length
  | .mat Ys => Ys.length

/-- C5 amended: when `len(v)` is smaller than the number of non-empty
cells, `propagate_values` raises IndexError while indexing `v` inside the
population loop (line 258), for both safe settings, before the safe-mode
NaN check (the spec's `PropagationError`, lines 263-267) can ever run;
when `len(v)` matches exactly it succeeds with a length-`m` output.
Both input shapes of the spec (scalar sequences, and uniform fixed-width
vector sequences) are covered. -/
theorem propagate_safe_amended (cs radii x : List ℚ) (X : List (List ℚ))
    (N : List (List ℤ)) (h : fitN cs radii x X = some N) (vs : List ℚ)
    (vv : List (List ℚ)) (d : ℕ)
    (hvvd : ∀ u ∈ vv, u.length = d) (safe : Bool) :
    (vs.length < nonEmptyCount N →
      propagate_values .tFloat N X.length (.scalars vs) safe =
        .error .indexError) ∧
    (vs.length = nonEmptyCount N →
      ∃ ys, propagate_values .tFloat N X.length (.scalars vs) safe =
        .ok (.vec ys) ∧ ys.length = X.length) ∧
    (vv.length < nonEmptyCount N →
      propagate_values .tFloat N X.length (.vectors vv) safe =
        .error .indexError) ∧
    (vv.length = nonEmptyCount N →
      ∃ out, propagate_values .tFloat N X.length (.vectors vv) safe =
        .ok out ∧ outputLen out = X.length) := by
  refine ⟨?_, ?_, ?_, ?_⟩
  · intro hshort
    rcases Nat.eq_zero_or_pos vs.length with hq | hq
    · rw [propagate_values,
        if_pos (show inputLen (.scalars vs) = 0 from hq)]
    · rw [propagate_values, if_neg (show ¬ inputLen (.scalars vs) = 0 by
        show ¬ vs.length = 0
        omega)]
      simp only [npFullNan, val_dim]
      rw [scatterRows_short (X.length + 1) 1 (.scalars vs)
        (fun k hk => by
          show (vs.get? k).map (fun q => [q]) = none
          rw [List.get?_eq_none.mpr hk]
          rfl)
        (fun k hk => by
          refine ⟨[vs.get ⟨k, hk⟩], [some (vs.get ⟨k, hk⟩)], ?_, ?_⟩
          · show (vs.get? k).map (fun q => [q]) = _
            rw [List.get?_eq_get hk]
            rfl
          · rw [broadcastVal]
            rfl)
        (N.filter rowNonEmpty) 0 _
        (fitN_filter_entries_valid cs radii x X N h)
        (by
          show vs.length < 0 + nonEmptyCount N
          omega)
        (by omega)]
  · intro hexact
    obtain ⟨Y, hprop, hYlen, _⟩ := propagate_values_ok cs radii x X N h
      (.scalars vs) hexact
      (fun k hk => by
        have hkvs : k < vs.length := by omega
        refine ⟨[vs.get ⟨k, hkvs⟩], [some (vs.get ⟨k, hkvs⟩)], ?_, ?_⟩
        · show ((vs.get? k).map (fun q => [q])) = _
          rw [List.get?_eq_get hkvs]
          rfl
        · rw [broadcastVal]
          rfl)
      safe
    rw [if_neg (by simp [val_dim])] at hprop
    exact ⟨Y.map (fun row => row.getD 0 none), hprop, by
      rw [List.length_map]; exact hYlen⟩
  · intro hshort
    rcases hvv0 : vv with _ | ⟨v0, rest⟩
    · rw [propagate_values,
        if_pos (show inputLen (.vectors []) = 0 from rfl)]
    · rw [← hvv0]
      have hlvv : inputLen (.vectors vv) = vv.length := rfl
      have hvd : val_dim (.vectors vv) = d := by
        rw [hvv0, val_dim]
        exact hvvd v0 (by rw [hvv0]; exact List.mem_cons_self _ _)
      rw [propagate_values, if_neg (by
        rw [hlvv, hvv0]
        simp)]
      simp only [npFullNan]
      rw [hvd]
      rw [scatterRows_short (X.length + 1) d (.vectors vv)
        (fun k hk => by
          show vv.get? k = none
          exact List.get?_eq_none.mpr hk)
        (fun k hk => by
          refine ⟨vv.get ⟨k, hk⟩, (vv.get ⟨k, hk⟩).map some, ?_, ?_⟩
          · show vv.get? k = _
            rw [List.get?_eq_get hk]
          · rw [broadcastVal,
              if_pos (hvvd _ (List.get_mem vv _ hk))])
        (N.filter rowNonEmpty) 0 _
        (fitN_filter_entries_valid cs radii x X N h)
        (by
          show vv.length < 0 + nonEmptyCount N
          omega)
        (by omega)]
  · intro hexact
    obtain ⟨hm0, hK0⟩ := fitN_pos h
    have hvd : val_dim (.vectors vv) = d := by
      rcases hvv0 : vv with _ | ⟨v0, rest⟩
      · rw [hvv0] at hexact
        simp at hexact
        omega
      · rw [val_dim]
        exact hvvd v0 (by rw [hvv0]; exact List.mem_cons_self _ _)
    obtain ⟨Y, hprop, hYlen, _⟩ := propagate_values_ok cs radii x X N h
      (.vectors vv) hexact
      (fun k hk => by
        have hkvv : k < vv.length := by omega
        refine ⟨vv.get ⟨k, hkvv⟩, (vv.get ⟨k, hkvv⟩).map some, ?_, ?_⟩
        · show vv.get? k = _
          rw [List.get?_eq_get hkvv]
        · rw [broadcastVal, hvd,
            if_pos (hvvd _ (List.get_mem vv _ hkvv))])
      safe
    by_cases hgt : 1 < val_dim (.vectors vv)
    · rw [if_pos hgt] at hprop
      exact ⟨.mat Y, hprop, hYlen⟩
    · rw [if_neg hgt] at hprop
      refine ⟨.vec (Y.map (fun row => row.getD 0 none)), hprop, ?_⟩
      show (Y.map (fun row => row.getD 0 none)).length = X.length
      rw [List.length_map]
      exact hYlen

/-- C5 counterexample: at the scenario fit (two non-empty cells), a
single-value sequence makes `propagate_values(v, safe=true)` raise
IndexError -- a different error than the safe-mode NaN ValueError that
the spec names `PropagationError`. -/
theorem propagate_short_raises_index_error :
    fitN [1, 1] [1, 1] [0, 0] Xscen =
      some [[0, -1], [-1, -1], [-1, -1], [1, 2]] ∧
    nonEmptyCount [[0, -1], [-1, -1], [-1, -1], [1, 2]] = 2 ∧
    propagate_values .tFloat [[0, -1], [-1, -1], [-1, -1], [1, 2]] 3
      (.scalars [5]) true = .error .indexError ∧
    PyErr.indexError ≠ PyErr.nanPropagationError :=
  ⟨scen_fit, by decide, by decide, by decide⟩

/-- Witness for the amended C5 at the scenario fit: short and exact
value sequences of both shapes (scalars and width-2 vectors). -/
theorem propagate_safe_amended_witness :
    (([5] : List ℚ).length <
        nonEmptyCount [[0, -1], [-1, -1], [-1, -1], [1, 2]] →
      propagate_values .tFloat [[0, -1], [-1, -1], [-1, -1], [1, 2]]
        Xscen.length (.scalars [5]) true = .error .indexError) ∧
    (([10, 20] : List ℚ).length =
        nonEmptyCount [[0, -1], [-1, -1], [-1, -1], [1, 2]] →
      ∃ ys, propagate_values .tFloat [[0, -1], [-1, -1], [-1, -1], [1, 2]]
        Xscen.length (.scalars [10, 20]) true = .ok (.vec ys) ∧
        ys.length = Xscen.length) ∧
    (([[1, 2]] : List (List ℚ)).length <
        nonEmptyCount [[0, -1], [-1, -1], [-1, -1], [1, 2]] →
      propagate_values .tFloat [[0, -1], [-1, -1], [-1, -1], [1, 2]]
        Xscen.length (.vectors [[1, 2]]) true = .error .indexError) ∧
    (([[1, 2], [3, 4]] : List (List ℚ)).length =
        nonEmptyCount [[0, -1], [-1, -1], [-1, -1], [1, 2]] →
      ∃ out, propagate_values .tFloat
        [[0, -1], [-1, -1], [-1, -1], [1, 2]] Xscen.length
        (.vectors [[1, 2], [3, 4]]) true = .ok out ∧
        outputLen out = Xscen.length) :=
  ⟨(propagate_safe_amended [1, 1] [1, 1] [0, 0] Xscen
      [[0, -1], [-1, -1], [-1, -1], [1, 2]] scen_fit [5] [[1, 2]] 2
      (by decide) true).1,
   (propagate_safe_amended [1, 1] [1, 1] [0, 0] Xscen
      [[0, -1], [-1, -1], [-1, -1], [1, 2]] scen_fit [10, 20]
      [[1, 2], [3, 4]] 2 (by decide) true).2.1,
   (propagate_safe_amended [1, 1] [1, 1] [0, 0] Xscen
      [[0, -1], [-1, -1], [-1, -1], [1, 2]] scen_fit [5] [[1, 2]] 2
      (by decide) true).2.2.1,
   (propagate_safe_amended [1, 1] [1, 1] [0, 0] Xscen
      [[0, -1], [-1, -1], [-1, -1], [1, 2]] scen_fit [10, 20]
      [[1, 2], [3, 4]] 2 (by decide) true).2.2.2⟩

/-- numpy row access `X[i]` with wrap-around integer indexing. -/
def pyGet (X : List (List ℚ)) (i : ℤ) : Option (List ℚ) :=
  (pyIdx X.length i).bind (fun p => X.get? p)

/-- numpy advanced indexing `X[idx]`: gather the rows at the given
indices (an out-of-range index is an IndexError). -/
def gatherRows (X : List (List ℚ)) (idx : List ℤ) :
    Option (List (List ℚ)) :=
  idx.mapM (pyGet X)

/-- `np.mean(-, axis=0)` on a stack of equal-width rows: the column-wise
sums divided by the number of rows. -/
def vecMean (L : List (List ℚ)) : List ℚ :=
  (L.foldr (fun p acc => List.zipWith (fun a b => a + b) p acc)
    (List.replicate (L.headD []).length 0)).map
      (fun q => q / (L.length : ℚ))

/-- `centroids_from_points` (lines 164-174), `interpolate=False` path:
center-and-scale the input, then produce one row per cell -- the mean of
the normalized member points for a cell with at least one non-shadow
entry, a NaN (`none`) vector otherwise.  (The `interpolate=True` branch,
lines 176-205, additionally fills the NaN rows from a k-nearest-neighbor
query over the non-empty centroids; its support points are modelled by
`sup_missing` and its neighbor index is the external scipy KDTree.) -/
def centroids_from_points (N : List (List ℤ)) (x radii : List ℚ)
    (X : List (List ℚ)) : Option (List (List (Option ℚ))) :=
  let Xn := X.map (center_and_scale x radii)
  let nanvec : List (Option ℚ) :=
    List.replicate (Xn.headD []).length none
  N.mapM (fun Ni =>
    if rowNonEmpty Ni then
      (gatherRows Xn (Ni.filter (fun e => decide (0 ≤ e)))).map
        (fun rows => (vecMean rows).map some)
    else some nanvec)

/-- The member points of cell `r`: the input indices that the indexing
pipeline routes to row `r`. -/
def membersOf (cs radii x : List ℚ) (X : List (List ℚ)) (r : ℕ) :
    List ℕ :=
  (List.range X.length).filter
    (fun j => decide (rowOfPoint (num_cells cs)
      (pointIndices cs radii x X) j = some r))

lemma assigned_eq_map_filter (R r : ℕ) : ∀ (L : List ℤ) (j0 : ℕ),
    assigned R r L j0 = ((List.range L.length).filter
      (fun k => decide ((L.get? k).bind (pyIdx R) = some r))).map
        (fun (k : ℕ) => ((j0 + k : ℕ) : ℤ)) := by
  intro L
  induction L with
  | nil => intro j0; rfl
  | cons i rest ih =>
    intro j0
    rw [assigned, List.length_cons, List.range_succ_eq_map,
      List.filter_cons]
    have htail : ((List.range rest.length).map Nat.succ).filter
        (fun k => decide (((i :: rest).get? k).bind (pyIdx R) =
          some r)) =
        ((List.range rest.length).filter
          (fun k => decide ((rest.get? k).bind (pyIdx R) =
            some r))).map Nat.succ := by
      rw [List.filter_map]
      rfl
    have hmap2 : ∀ P : List ℕ,
        ((P.filter (fun k => decide ((rest.get? k).bind (pyIdx R) =
            some r))).map Nat.succ).map
          (fun (k : ℕ) => ((j0 + k : ℕ) : ℤ)) =
        (P.filter (fun k => decide ((rest.get? k).bind (pyIdx R) =
            some r))).map (fun (k : ℕ) => (((j0 + 1) + k : ℕ) : ℤ)) := by
      intro P
      rw [List.map_map]
      apply List.map_congr_left
      intro a _
      show (((j0 + (a + 1) : ℕ) : ℤ)) = (((j0 + 1) + a : ℕ) : ℤ)
      congr 1
      omega
    by_cases hq : pyIdx R i = some r
    · have hpos : (decide (((i :: rest).get? 0).bind (pyIdx R) =
          some r)) = true := by simpa using hq
      rw [if_pos hq, if_pos hpos, List.map_cons, htail, hmap2,
        ← ih (j0 + 1)]
      try congr 1
      try norm_num
    · have hneg : ¬ (decide (((i :: rest).get? 0).bind (pyIdx R) =
          some r)) = true := by simpa using hq
      rw [if_neg hq, if_neg hneg, htail, hmap2, ← ih (j0 + 1)]

lemma assigned_eq_members (cs radii x : List ℚ) (X : List (List ℚ))
    (r : ℕ) :
    assigned (num_cells cs) r (pointIndices cs radii x X) 0 =
      (membersOf cs radii x X r).map (fun (j : ℕ) => (j : ℤ)) := by
  rw [assigned_eq_map_filter, pointIndices_length]
  have hfun : (fun (k : ℕ) => ((0 + k : ℕ) : ℤ)) =
      (fun j : ℕ => (j : ℤ)) := by
    funext k
    norm_num
  rw [hfun]
  rfl

lemma rowNonEmpty_replicate (pad : ℕ) :
    rowNonEmpty (List.replicate pad (-1 : ℤ)) = false := by
  rw [rowNonEmpty]
  rw [List.any_eq_false]
  intro e he
  rw [List.eq_of_mem_replicate he]
  simp

lemma pyGet_coe (Xn : List (List ℚ)) (j : ℕ) (hj : j < Xn.length) :
    pyGet Xn ((j : ℕ) : ℤ) = some (Xn.getD j []) := by
  rw [pyGet, pyIdx_coe _ _ hj]
  simp only [Option.some_bind]
  rw [List.get?_eq_get hj, List.getD_eq_getElem _ _ hj]
  rfl

lemma gatherRows_coe (Xn : List (List ℚ)) :
    ∀ (js : List ℕ), (∀ j ∈ js, j < Xn.length) →
      gatherRows Xn (js.map (fun (j : ℕ) => (j : ℤ))) =
        some (js.map (fun j => Xn.getD j [])) := by
  intro js
  induction js with
  | nil => intro _; rfl
  | cons j js ih =>
    intro hbound
    rw [List.map_cons, gatherRows, List.mapM_cons,
      pyGet_coe Xn j (hbound j (List.mem_cons_self _ _))]
    rw [show (js.map (fun (j : ℕ) => (j : ℤ))).mapM (pyGet Xn) =
      gatherRows Xn (js.map (fun (j : ℕ) => (j : ℤ))) from rfl]
    rw [ih (fun a ha => hbound a (List.mem_cons_of_mem _ ha))]
    rfl

lemma mapM_some_spec {α β : Type} (g : α → Option β) :
    ∀ l : List α, (∀ a ∈ l, ∃ b, g a = some b) →
      ∃ y : List β, l.mapM g = some y ∧ y.length = l.length ∧
        ∀ (k : ℕ) (hk : k < l.length), g (l.get ⟨k, hk⟩) = y.get? k := by
  intro l
  induction l with
  | nil =>
    intro _
    exact ⟨[], rfl, rfl, fun k hk => absurd hk (by simp)⟩
  | cons a t ih =>
    intro hall
    obtain ⟨b, hb⟩ := hall a (List.mem_cons_self _ _)
    obtain ⟨y, hy, hylen, hyget⟩ :=
      ih (fun a2 ha2 => hall a2 (List.mem_cons_of_mem _ ha2))
    refine ⟨b :: y, ?_, by simp [hylen], ?_⟩
    · rw [List.mapM_cons, hb, hy]
      rfl
    · intro k hk
      cases k with
      | zero => exact hb
      | succ k => exact hyget k (by simpa using hk)


/-- C6: for every fitted receptive field, `centroids_from_points` (no
interpolation) returns one row per cell: the column-wise mean of the
normalized coordinates of the cell's member points when the cell has at
least one non-shadow entry, and a NaN vector for a cell with zero
members. -/
theorem centroids_from_points_spec (cs radii x : List ℚ)
    (X : List (List ℚ)) (N : List (List ℤ))
    (h : fitN cs radii x X = some N) :
    ∃ Y, centroids_from_points N x radii X = some Y ∧
      Y.length = N.length ∧
      ∀ r, r < N.length →
        (membersOf cs radii x X r ≠ [] →
          Y.getD r [] = (vecMean ((membersOf cs radii x X r).map
            (fun j => (X.map (center_and_scale x radii)).getD j
              []))).map some) ∧
        (membersOf cs radii x X r = [] →
          Y.getD r [] = List.replicate
            ((X.map (center_and_scale x radii)).headD []).length
              none) := by
  have hb : buildN (num_cells cs) (pointIndices cs radii x X) =
      some N := by
    rw [fitN] at h
    exact h
  obtain ⟨W, hW, hlenN, hrows⟩ := buildN_rows hb
  have hXnlen : (X.map (center_and_scale x radii)).length = X.length :=
    List.length_map X _
  -- evaluate the per-cell function at each row
  have hg : ∀ (r : ℕ) (hr : r < N.length),
      (if rowNonEmpty (N.get ⟨r, hr⟩) then
        (gatherRows (X.map (center_and_scale x radii))
          ((N.get ⟨r, hr⟩).filter (fun e => decide (0 ≤ e)))).map
            (fun rows => (vecMean rows).map some)
      else some (List.replicate
        ((X.map (center_and_scale x radii)).headD []).length none)) =
      some (if membersOf cs radii x X r = [] then
          List.replicate
            ((X.map (center_and_scale x radii)).headD []).length none
        else (vecMean ((membersOf cs radii x X r).map
          (fun j => (X.map (center_and_scale x radii)).getD j
            []))).map some) := by
    intro r hr
    obtain ⟨hrow, _⟩ := hrows r (hlenN ▸ hr)
    have hrowget : N.get ⟨r, hr⟩ = getRow N r := (getRow_eq_get hr).symm
    have hmembers := assigned_eq_members cs radii x X r
    rcases hmem : membersOf cs radii x X r with _ | ⟨j0, js⟩
    · -- empty cell
      rw [hmem] at hmembers
      simp only [List.map_nil] at hmembers
      rw [hmembers] at hrow
      rw [hrowget, hrow, List.nil_append, if_neg (by
        rw [rowNonEmpty_replicate]
        simp)]
      rw [if_pos rfl]
    · -- non-empty cell
      rw [← hmem]
      rw [hmembers] at hrow
      have hfil : (getRow N r).filter (fun e => decide (0 ≤ e)) =
          (membersOf cs radii x X r).map (fun (j : ℕ) => (j : ℤ)) := by
        rw [hrow, List.filter_append]
        have h1 : ((membersOf cs radii x X r).map
            (fun (j : ℕ) => (j : ℤ))).filter
              (fun e => decide (0 ≤ e)) =
            (membersOf cs radii x X r).map (fun (j : ℕ) => (j : ℤ)) := by
          apply List.filter_eq_self.mpr
          intro e he
          obtain ⟨j, _, hj⟩ := List.mem_map.mp he
          rw [← hj]
          simp
        have h2 : (List.replicate (W - ((membersOf cs radii x X r).map
            (fun (j : ℕ) => (j : ℤ))).length) (-1 : ℤ)).filter
              (fun e => decide (0 ≤ e)) = [] := by
          apply List.filter_eq_nil_iff.mpr
          intro e he
          rw [List.eq_of_mem_replicate he]
          simp
        rw [h1, h2, List.append_nil]
      have hne : rowNonEmpty (N.get ⟨r, hr⟩) = true := by
        rw [hrowget, rowNonEmpty, List.any_eq_true]
        refine ⟨((j0 : ℕ) : ℤ), ?_, by simp⟩
        rw [hrow]
        apply List.mem_append_left
        exact List.mem_map.mpr ⟨j0, (by
          rw [hmem]
          exact List.mem_cons_self _ _), rfl⟩
      rw [if_pos hne, hrowget, hfil, gatherRows_coe _ _ (fun j hj => by
        rw [hXnlen]
        have hj2 : j ∈ (List.range X.length).filter
            (fun j => decide (rowOfPoint (num_cells cs)
              (pointIndices cs radii x X) j = some r)) := hj
        exact List.mem_range.mp (List.mem_of_mem_filter hj2))]
      rw [if_neg (by rw [hmem]; simp)]
      rfl
  obtain ⟨Y, hY, hYlen, hYget⟩ := mapM_some_spec
    (fun Ni =>
      if rowNonEmpty Ni then
        (gatherRows (X.map (center_and_scale x radii))
          (Ni.filter (fun e => decide (0 ≤ e)))).map
            (fun rows => (vecMean rows).map some)
      else some (List.replicate
        ((X.map (center_and_scale x radii)).headD []).length none))
    N
    (fun Ni hNi => by
      obtain ⟨⟨r, hr⟩, hget⟩ := List.mem_iff_get.mp hNi
      rw [← hget]
      exact ⟨_, hg r hr⟩)
  refine ⟨Y, hY, hYlen, ?_⟩
  intro r hr
  have hYr : Y.get? r = some (if membersOf cs radii x X r = [] then
      List.replicate
        ((X.map (center_and_scale x radii)).headD []).length none
    else (vecMean ((membersOf cs radii x X r).map
      (fun j => (X.map (center_and_scale x radii)).getD j
        []))).map some) := by
    rw [← hYget r hr]
    exact hg r hr
  have hYD : Y.getD r [] = (if membersOf cs radii x X r = [] then
      List.replicate
        ((X.map (center_and_scale x radii)).headD []).length none
    else (vecMean ((membersOf cs radii x X r).map
      (fun j => (X.map (center_and_scale x radii)).getD j
        []))).map some) := by
    rw [List.getD_eq_getD_get? Y [] r, hYr]
    rfl
  constructor
  · intro hne
    rw [hYD, if_neg hne]
  · intro hnil
    rw [hYD, if_pos hnil]


theorem scen_centroids : centroids_from_points
    [[0, -1], [-1, -1], [-1, -1], [1, 2]] [0, 0] [1, 1] Xscen =
    some [[some (-1/2), some (-1/2)], [none, none], [none, none],
      [some (7/10), some (7/10)]] := by
  norm_num [centroids_from_points, gatherRows, pyGet, pyIdx, vecMean,
    rowNonEmpty, center_and_scale, Xscen, List.mapM.loop,
    List.zipWith, List.replicate, Int.toNat_ofNat]


/-- Witness for C6 at the scenario of spec §8: the cell holding the two
points (1/2,1/2) and (9/10,9/10) gets their mean (7/10,7/10), the cell
of point 0 gets (-1/2,-1/2), and the two empty cells get NaN rows. -/
theorem centroids_from_points_spec_witness :
    centroids_from_points [[0, -1], [-1, -1], [-1, -1], [1, 2]]
      [0, 0] [1, 1] Xscen = some [[some (-1/2), some (-1/2)],
        [none, none], [none, none], [some (7/10), some (7/10)]] ∧
    (∃ Y, centroids_from_points [[0, -1], [-1, -1], [-1, -1], [1, 2]]
        [0, 0] [1, 1] Xscen = some Y ∧
      Y.length = ([[0, -1], [-1, -1], [-1, -1], [1, 2]] :
        List (List ℤ)).length ∧
      ∀ r, r < ([[0, -1], [-1, -1], [-1, -1], [1, 2]] :
          List (List ℤ)).length →
        (membersOf [1, 1] [1, 1] [0, 0] Xscen r ≠ [] →
          Y.getD r [] = (vecMean ((membersOf [1, 1] [1, 1] [0, 0]
            Xscen r).map (fun j => (Xscen.map
              (center_and_scale [0, 0] [1, 1])).getD j []))).map
                some) ∧
        (membersOf [1, 1] [1, 1] [0, 0] Xscen r = [] →
          Y.getD r [] = List.replicate ((Xscen.map
            (center_and_scale [0, 0] [1, 1])).headD []).length
              none)) :=
  ⟨scen_centroids, centroids_from_points_spec [1, 1] [1, 1] [0, 0]
    Xscen [[0, -1], [-1, -1], [-1, -1], [1, 2]] scen_fit⟩

end RF
